import Mathlib

/-!
Verification of the marker-to-structure reconstruction engine of
docx_to_gcweb_html_extended.js.

The DOM fragment handled by cheerio is embedded as a tree of `Node`s
(text nodes, and elements with a tag, an attribute list and children).
`transformPlaceholdersToGCWeb` and its six passes (alerts, tables,
details, accordion, pagination, lists) are translated pass by pass from
the source.  Where a pass reads a node's inner HTML with `.html()` and
feeds it to a fresh node's `.html(str)` setter, the embedding transfers
the child list directly (serialize-then-parse round-trips on a
well-formed tree).  Loops whose recursion is not structural carry a
fuel argument; every wrapper supplies fuel that provably suffices, so
all definitions evaluate on concrete inputs.
-/

set_option maxHeartbeats 1000000

namespace Gcweb

/-- A cheerio DOM node: text, or an element with tag name, attribute
list and ordered children. -/
inductive Node where
  | text (s : String)
  | elem (tag : String) (attrs : List (String × String)) (children : List Node)
deriving Repr

/-- Attribute getter, as in cheerio attr(k): first binding of key k. -/
def lookAttr (k : String) : List (String × String) → Option String
  | [] => none
  | (a, v) :: rest => if a == k then some v else lookAttr k rest

/-- Attribute setter, as in cheerio attr(k, v): overwrite the binding of
k in place, or append it. -/
def setAttr (k v : String) : List (String × String) → List (String × String)
  | [] => [(k, v)]
  | (a, b) :: rest => if a == k then (k, v) :: rest else (a, b) :: setAttr k v rest

/-- The data-wet marker attribute of a node (none for text nodes). -/
def Node.wet : Node → Option String
  | .text _ => none
  | .elem _ attrs _ => lookAttr "data-wet" attrs

def Node.tagName : Node → String
  | .text _ => ""
  | .elem t _ _ => t

/-- attr("class", v): overwrite the class attribute of an element. -/
def setClassAttr (v : String) : Node → Node
  | .text s => .text s
  | .elem t a cs => .elem t (setAttr "class" v a) cs

/-- cheerio addClass(c): append class c unless already present. -/
def addClass (c : String) : Node → Node
  | .text s => .text s
  | .elem t a cs =>
    match lookAttr "class" a with
    | none => .elem t (setAttr "class" c a) cs
    | some s =>
      if (s.splitOn " ").contains c then .elem t a cs
      else .elem t (setAttr "class" (s ++ " " ++ c) a) cs

/-- The child list a node contributes when its inner HTML is read with
html() and written into a fresh node with html(str).  For a text node the
accordion fallback effectively carries its text over. -/
def innerNodes : Node → List Node
  | .text s => [.text s]
  | .elem _ _ cs => cs

/-- Attribute selector with a value whose test is p tag wetValue; false on
nodes without a data-wet attribute. -/
def markerIs (p : String → String → Bool) : Node → Bool
  | .text _ => false
  | .elem t attrs _ =>
    match lookAttr "data-wet" attrs with
    | some w => p t w
    | none => false

/-- Character-list model of the prefix test on strings (the byte-level
String.isPrefixOf primitive does not reduce inside the kernel, its
character-list counterpart does). -/
def strStarts (p s : String) : Bool := p.data.isPrefixOf s.data

/-- Character-list model of String.trim, stripping leading and trailing
whitespace as the JS trim of the label rule does. -/
def trimStr (s : String) : String :=
  .mk (((s.data.dropWhile Char.isWhitespace).reverse.dropWhile Char.isWhitespace).reverse)

/-- Selector [data-wet^=s] on any tag. -/
def wetStarts (s : String) (n : Node) : Bool := markerIs (fun _ w => strStarts s w) n

/-- Selector div[data-wet=w]. -/
def isDivWet (w : String) (n : Node) : Bool := markerIs (fun t v => t == "div" && v == w) n

mutual
/-- Tree size, used to bound the fuel of the alert pass. -/
def sizeN : Node → Nat
  | .text _ => 1
  | .elem _ _ cs => sizeL cs + 1
def sizeL : List Node → Nat
  | [] => 0
  | n :: rest => sizeN n + sizeL rest + 1
end

mutual
/-- cheerio text(): concatenation of all descendant text. -/
def textOf : Node → String
  | .text s => s
  | .elem _ _ cs => textL cs
def textL : List Node → String
  | [] => ""
  | n :: rest => textOf n ++ textL rest
end

def renderAttrs : List (String × String) → String
  | [] => ""
  | (k, v) :: rest => " " ++ k ++ "=\x22" ++ v ++ "\x22" ++ renderAttrs rest

mutual
/-- Serialization of a tree back to HTML text, used only for the
pagination label fallback ($m.html() as a string). -/
def renderN : Node → String
  | .text s => s
  | .elem t a cs => "<" ++ t ++ renderAttrs a ++ ">" ++ renderL cs ++ "</" ++ t ++ ">"
def renderL : List Node → String
  | [] => ""
  | n :: rest => renderN n ++ renderL rest
end

/-- Marker element as the style map emits it: a div with a data-wet tag. -/
def mkW (w : String) (cs : List Node) : Node := .elem "div" [("data-wet", w)] cs

/-! ## Alert pass

$("[data-wet^='alert-']").each: replace each alert marker with
<section class="alert alert-KIND"> holding the marker's first descendant
<p> as its sole child.  The selection is a snapshot in document order;
processing an outer marker first and then recursing into the single
extracted paragraph reproduces it (all other descendants are detached
before their turn and their replaceWith has no further tree effect). -/

mutual
/-- find("p").first() on one subtree: the node itself when tagged p,
else the first hit inside its children. -/
def findFirstPN : Node → Option Node
  | .text _ => none
  | .elem t a cs => if t == "p" then some (.elem t a cs) else findFirstP cs
/-- find("p").first() over a forest: first descendant with tag p, in
document order. -/
def findFirstP : List Node → Option Node
  | [] => none
  | n :: rest =>
    match findFirstPN n with
    | some r => some r
    | none => findFirstP rest
end

mutual
def alertGo : Nat → Node → Node
  | 0, n => n
  | _ + 1, .text s => .text s
  | fuel + 1, .elem t a cs =>
    match lookAttr "data-wet" a with
    | some w =>
      if strStarts "alert-" w then
        -- type = attr.replace("alert-", "") drops the leading six characters
        Node.elem "section" [("class", "alert alert-" ++ w.drop 6)]
          (match findFirstP cs with
           | some pn => [alertGo fuel pn]
           | none => [])
      else Node.elem t a (alertGoL fuel cs)
    | none => Node.elem t a (alertGoL fuel cs)
def alertGoL : Nat → List Node → List Node
  | 0, l => l
  | _ + 1, [] => []
  | fuel + 1, n :: rest => alertGo fuel n :: alertGoL fuel rest
end

def alertStage (l : List Node) : List Node := alertGoL (sizeL l) l

/-! ## Table pass

$("[data-wet^='table-']").each: for each marker, nextAll("table").first()
is wrapped (table-responsive) or reclassed (mapped kinds); the marker is
always removed.  Markers act on their own sibling level only, and their
effects at distinct levels commute, so the snapshot iteration is
reproduced by one scan per sibling level, children first. -/

def tableClassMap : String → Option String := fun k =>
  if k == "table-basic" then some "table"
  else if k == "table-striped" then some "table table-striped"
  else if k == "table-bordered" then some "table table-bordered"
  else if k == "table-hover" then some "table table-hover"
  else if k == "table-condensed" then some "table table-condensed"
  else none

def isTableMarker (n : Node) : Bool := wetStarts "table-" n
def isTableElem (n : Node) : Bool := n.tagName == "table"

/-- Effect of one table marker of kind k on its later siblings.  A wrapped
table that is itself a table marker becomes an empty wrapper: its own later
processing finds no sibling table inside the fresh div and removes it. -/
def tableApply (k : String) : List Node → List Node
  | [] => []
  | n :: rest =>
    if isTableElem n then
      if k == "table-responsive" then
        (if isTableMarker n then Node.elem "div" [("class", "table-responsive")] []
         else Node.elem "div" [("class", "table-responsive")] [n]) :: rest
      else match tableClassMap k with
        | some cls => setClassAttr cls n :: rest
        | none => n :: rest
    else n :: tableApply k rest

def tableSibsF : Nat → List Node → List Node
  | 0, l => l
  | _ + 1, [] => []
  | fuel + 1, n :: rest =>
    match n.wet with
    | some w =>
      if strStarts "table-" w then tableSibsF fuel (tableApply w rest)
      else n :: tableSibsF fuel rest
    | none => n :: tableSibsF fuel rest

def tableSibs (l : List Node) : List Node := tableSibsF l.length l

mutual
def tablePassNode : Node → Node
  | .text s => .text s
  | .elem t a cs => .elem t a (tableSibs (tablePassList cs))
def tablePassList : List Node → List Node
  | [] => []
  | n :: rest => tablePassNode n :: tablePassList rest
end

def tableStage (l : List Node) : List Node := tableSibs (tablePassList l)

/-! ## Stray-marker sweeps

$main.find(selector).remove(): recursively delete every matching
descendant together with its subtree. -/

mutual
def sweepN (q : Node → Bool) : Node → Node
  | .text s => .text s
  | .elem t a cs => .elem t a (sweepL q cs)
def sweepL (q : Node → Bool) : List Node → List Node
  | [] => []
  | n :: rest => if q n then sweepL q rest else sweepN q n :: sweepL q rest
end

/-! ## Details pass (top-level scan of $main.contents()) -/

def isSummaryM (n : Node) : Bool := isDivWet "details-summary" n
def isContentM (n : Node) : Bool := isDivWet "details-content" n

/-- Greedy run of details-content markers following a summary marker. -/
def spanContent : List Node → List Node × List Node
  | [] => ([], [])
  | n :: rest =>
    if isContentM n then
      ((n :: (spanContent rest).1), (spanContent rest).2)
    else ([], n :: rest)

def mkDetails (sumKids : List Node) (contents : List Node) : Node :=
  Node.elem "details" []
    (Node.elem "summary" [] sumKids ::
      contents.map (fun c => Node.elem "p" [] (innerNodes c)))

def detailsF : Nat → List Node → List Node
  | 0, l => l
  | _ + 1, [] => []
  | fuel + 1, n :: rest =>
    if isSummaryM n then
      mkDetails (innerNodes n) (spanContent rest).1 :: detailsF fuel (spanContent rest).2
    else n :: detailsF fuel rest

def detailsPass (l : List Node) : List Node := detailsF l.length l

/-- Details pass including its final stray sweep (line 203): only
div[data-wet='details-content'] nodes are swept. -/
def detailsStage (l : List Node) : List Node := sweepL isContentM (detailsPass l)

/-! ## Accordion pass (top-level scan bounded by start/end markers) -/

def mkP (cs : List Node) : Node := Node.elem "p" [] cs

def appendKid (child : Node) : Node → Node
  | .text s => .text s
  | .elem t a cs => .elem t a (cs ++ [child])

/-- Append a paragraph to the current item (the head of the reversed item
list); with no current item yet, synthesize the default item whose summary
is the literal label Details. -/
def pushPanel (child : Node) : List Node → List Node
  | [] => [Node.elem "details" [] [Node.elem "summary" [] [Node.text "Details"], child]]
  | item :: more => appendKid child item :: more

/-- Interior scan of one accordion scope.  Arguments: remaining siblings
and the items built so far in reverse (the head is the current item).
Returns the final reversed items and the siblings left after the scope;
an accordion-end marker is consumed, a scope-breaking node is not.  A
non-marker node is folded into the current item when one exists and
otherwise ends the scope (currentItem is null exactly when no item has
been created yet, i.e. the reversed list is empty). -/
def accStep : List Node → List Node → List Node × List Node
  | [], revItems => (revItems, [])
  | n :: rest, revItems =>
    if isDivWet "accordion-end" n then (revItems, rest)
    else if isDivWet "accordion-heading" n then
      accStep rest (Node.elem "details" [] [Node.elem "summary" [] (innerNodes n)] :: revItems)
    else if isDivWet "accordion-panel" n then
      accStep rest (pushPanel (mkP (innerNodes n)) revItems)
    else if revItems.isEmpty then (revItems, n :: rest)
    else accStep rest (pushPanel (mkP (innerNodes n)) revItems)

def accPassF : Nat → List Node → List Node
  | 0, l => l
  | _ + 1, [] => []
  | fuel + 1, n :: rest =>
    if isDivWet "accordion-start" n then
      Node.elem "section" [("class", "wb-accordion")] (accStep rest []).1.reverse
        :: accPassF fuel (accStep rest []).2
    else n :: accPassF fuel rest

def accPass (l : List Node) : List Node := accPassF l.length l

def isAccM (n : Node) : Bool := markerIs (fun t w => t == "div" && strStarts "accordion-" w) n

def accStage (l : List Node) : List Node := sweepL isAccM (accPass l)

/-! ## Pagination pass (top-level scan bounded by start/end markers) -/

/-- Entry label: $m.text().trim() || $m.html(). -/
def labelOf (n : Node) : String :=
  let t := trimStr (textOf n)
  if t == "" then renderL (innerNodes n) else t

def pagStep : List Node → List Node → List Node × List Node
  | [], revLis => (revLis, [])
  | n :: rest, revLis =>
    if isDivWet "pagination-end" n then (revLis, rest)
    else if isDivWet "pagination-active" n then
      pagStep rest
        (Node.elem "li" [("class", "active")]
          [Node.elem "a" [("href", "#"), ("aria-current", "page")]
            [Node.text (labelOf n)]] :: revLis)
    else if isDivWet "pagination-disabled" n then
      pagStep rest
        (Node.elem "li" [("class", "disabled")]
          [Node.elem "span" [] [Node.text (labelOf n)]] :: revLis)
    else if isDivWet "pagination-item" n then
      pagStep rest
        (Node.elem "li" []
          [Node.elem "a" [("href", "#")] [Node.text (labelOf n)]] :: revLis)
    else (revLis, n :: rest)

def pagPassF : Nat → List Node → List Node
  | 0, l => l
  | _ + 1, [] => []
  | fuel + 1, n :: rest =>
    if isDivWet "pagination-start" n then
      Node.elem "nav" [("aria-label", "Pagination")]
        [Node.elem "ul" [("class", "pagination")] (pagStep rest []).1.reverse]
        :: pagPassF fuel (pagStep rest []).2
    else n :: pagPassF fuel rest

def pagPass (l : List Node) : List Node := pagPassF l.length l

def isPagM (n : Node) : Bool := markerIs (fun t w => t == "div" && strStarts "pagination-" w) n

def pagStage (l : List Node) : List Node := sweepL isPagM (pagPass l)

/-! ## List pass -/

def isListMarker (n : Node) : Bool :=
  markerIs (fun _ w => w == "list-inline" || w == "list-unstyled") n

def isListElem (n : Node) : Bool := n.tagName == "ul" || n.tagName == "ol"

/-- Effect of one list marker of kind k: addClass k on the first
following ul/ol sibling. -/
def listApply (k : String) : List Node → List Node
  | [] => []
  | n :: rest => if isListElem n then addClass k n :: rest else n :: listApply k rest

def listSibsF : Nat → List Node → List Node
  | 0, l => l
  | _ + 1, [] => []
  | fuel + 1, n :: rest =>
    if isListMarker n then listSibsF fuel (listApply (n.wet.getD "") rest)
    else n :: listSibsF fuel rest

def listSibs (l : List Node) : List Node := listSibsF l.length l

mutual
def listPassNode : Node → Node
  | .text s => .text s
  | .elem t a cs => .elem t a (listSibs (listPassList cs))
def listPassList : List Node → List Node
  | [] => []
  | n :: rest => listPassNode n :: listPassList rest
end

def listStage (l : List Node) : List Node := listSibs (listPassList l)

/-! ## Full transformation -/

def isElemNode : Node → Bool
  | .elem _ _ _ => true
  | .text _ => false

/-- transformPlaceholdersToGCWeb: wrap the body's element children in
<main property="mainContentOfPage" class="container"> and run the six
passes in source order. -/
def transformPlaceholdersToGCWeb (body : List Node) : Node :=
  let l0 := body.filter isElemNode
  let l1 := alertStage l0
  let l2 := tableStage l1
  let l3 := detailsStage l2
  let l4 := accStage l3
  let l5 := pagStage l4
  let l6 := listStage l5
  Node.elem "main" [("property", "mainContentOfPage"), ("class", "container")] l6

/-! ## Command-line front end (parseArgs and main) -/

structure Args where
  input : Option String
  output : Option String
deriving Repr, DecidableEq

def parseLoop : List String → List String → Option String → List String × Option String
  | [], pos, outp => (pos, outp)
  | a :: rest, pos, outp =>
    if a == "-o" || a == "--output" then
      match rest with
      | [] => (pos, none)
      | b :: rest2 => parseLoop rest2 pos (some b)
    else parseLoop rest (pos ++ [a]) outp

/-- parseArgs: skip argv[0] (node) and argv[1] (script); -o and --output
take the next argument; input is the first positional, with an empty string
collapsing to null through the JS or-default. -/
def parseArgs (argv : List String) : Args :=
  let r := parseLoop (argv.drop 2) [] none
  { input :=
      match r.1.head? with
      | some s => if s == "" then none else some s
      | none => none
    output := r.2 }

structure RunOutcome where
  exitCode : Nat
  written : Option (Option String × String)
  errLines : List String
deriving Repr, DecidableEq

def usageLine : String := "Usage: node docx_to_gcweb_html_extended.js input.docx -o output.html"

/-- main, with the read-convert-transform chain abstracted as one
fallible converter: missing input exits 2 with the usage message before
the converter is consulted; a converter failure is printed and exits 1;
success writes the HTML to the chosen destination, reports the
non-fatal warnings on the error stream and exits 0. -/
def mainModel (argv : List String)
    (convert : String → Except String (String × List String)) : RunOutcome :=
  let args := parseArgs argv
  match args.input with
  | none => { exitCode := 2, written := none, errLines := [usageLine] }
  | some inp =>
    match convert inp with
    | .error e => { exitCode := 1, written := none, errLines := [e] }
    | .ok (html, msgs) =>
      { exitCode := 0
        written := some (args.output, html)
        errLines :=
          if msgs.isEmpty then []
          else "mammoth messages:" :: msgs.map (fun m => " - " ++ m) }

/-! ## Marker-absence predicates -/

mutual
/-- No node in the tree matches the attribute test p. -/
def cleanN (p : String → String → Bool) : Node → Bool
  | .text _ => true
  | .elem t a cs => !(markerIs p (.elem t a cs)) && cleanL p cs
def cleanL (p : String → String → Bool) : List Node → Bool
  | [] => true
  | n :: rest => cleanN p n && cleanL p rest
end

/-- No node of the list itself (one level, not descendants) matches p. -/
def topClean (p : String → String → Bool) (l : List Node) : Bool :=
  l.all (fun n => !(markerIs p n))

/-- Every strict descendant of the node avoids p (the node itself may match). -/
def kidsClean (p : String → String → Bool) : Node → Bool
  | .text _ => true
  | .elem _ _ cs => cleanL p cs

/-- Every node of the list keeps its own marker but has p-free descendants. -/
def levelOk (p : String → String → Bool) (l : List Node) : Bool :=
  l.all (kidsClean p)

def alertPred : String → String → Bool := fun _ w => strStarts "alert-" w
def tablePred : String → String → Bool := fun _ w => strStarts "table-" w
def listPred : String → String → Bool := fun _ w => w == "list-inline" || w == "list-unstyled"
def contentPred : String → String → Bool := fun t w => t == "div" && w == "details-content"
def accDivPred : String → String → Bool := fun t w => t == "div" && strStarts "accordion-" w
def pagDivPred : String → String → Bool := fun t w => t == "div" && strStarts "pagination-" w
def summaryPred : String → String → Bool := fun t w => t == "div" && w == "details-summary"

/-- The closed marker vocabulary of the style map. -/
def vocabList : List String :=
  ["alert-success", "alert-info", "alert-warning", "alert-danger",
   "table-basic", "table-striped", "table-bordered", "table-hover",
   "table-condensed", "table-responsive",
   "list-inline", "list-unstyled",
   "details-summary", "details-content",
   "accordion-start", "accordion-heading", "accordion-panel", "accordion-end",
   "pagination-start", "pagination-item", "pagination-active", "pagination-disabled",
   "pagination-end"]

def vocabPred : String → String → Bool := fun _ w => vocabList.contains w

/-- Amended marker closure: no alert-, table- or list-family marker on any
node; no div carrying a details-content, accordion-family or
pagination-family marker anywhere; no details-summary div among the
top-level children of the main container. -/
def amendedClosure (out : Node) : Bool :=
  cleanN alertPred out && cleanN tablePred out && cleanN listPred out &&
  cleanN contentPred out && cleanN accDivPred out && cleanN pagDivPred out &&
  (match out with
   | .elem _ _ cs => topClean summaryPred cs
   | .text _ => true)

/-- Single-node view of the alert pass with enough fuel. -/
def alertNode (n : Node) : Node := alertGo (sizeN n) n

/-! # Basic lemmas -/

theorem sizeN_pos (n : Node) : 1 ≤ sizeN n := by
  cases n with
  | text s => simp [sizeN]
  | elem t a cs => exact Nat.le_add_left 1 _

theorem sizeL_le_zero {l : List Node} (h : sizeL l ≤ 0) : l = [] := by
  cases l with
  | nil => rfl
  | cons n rest =>
    exfalso
    simp [sizeL] at h

theorem sizeL_cons (n : Node) (rest : List Node) :
    sizeL (n :: rest) = sizeN n + sizeL rest + 1 := rfl

theorem markerIs_kids (p : String → String → Bool) (t : String)
    (a : List (String × String)) (cs cs2 : List Node) :
    markerIs p (.elem t a cs) = markerIs p (.elem t a cs2) := rfl

theorem markerIs_mono {p1 p2 : String → String → Bool}
    (hp : ∀ t w, p2 t w = true → p1 t w = true) {n : Node}
    (h : markerIs p1 n = false) : markerIs p2 n = false := by
  cases n with
  | text s => rfl
  | elem t a cs =>
    simp only [markerIs] at h ⊢
    cases hw : lookAttr "data-wet" a with
    | none => simp [hw]
    | some w =>
      simp only [hw] at h ⊢
      cases h2 : p2 t w with
      | false => rfl
      | true => rw [hp t w h2] at h; exact h

theorem cleanN_elem_iff {p : String → String → Bool} {t : String}
    {a : List (String × String)} {cs : List Node} :
    cleanN p (.elem t a cs) = true ↔
      markerIs p (.elem t a cs) = false ∧ cleanL p cs = true := by
  rw [cleanN, Bool.and_eq_true, Bool.not_eq_true']

theorem cleanN_markerIs {p : String → String → Bool} {n : Node}
    (h : cleanN p n = true) : markerIs p n = false := by
  cases n with
  | text s => rfl
  | elem t a cs => exact (cleanN_elem_iff.mp h).1

theorem cleanL_append (p : String → String → Bool) (l1 l2 : List Node) :
    cleanL p (l1 ++ l2) = (cleanL p l1 && cleanL p l2) := by
  induction l1 with
  | nil => simp [cleanL]
  | cons n rest ih => simp [cleanL, ih, Bool.and_assoc]

theorem cleanL_reverse (p : String → String → Bool) (l : List Node) :
    cleanL p l.reverse = cleanL p l := by
  induction l with
  | nil => rfl
  | cons n rest ih =>
    simp [cleanL, List.reverse_cons, cleanL_append, ih, Bool.and_comm]

theorem cleanL_forall {p : String → String → Bool} {l : List Node} :
    cleanL p l = true ↔ ∀ n ∈ l, cleanN p n = true := by
  induction l with
  | nil => simp [cleanL]
  | cons n rest ih => simp [cleanL, ih]

theorem topClean_cons {p : String → String → Bool} {n : Node} {l : List Node} :
    topClean p (n :: l) = (!(markerIs p n) && topClean p l) := by
  simp [topClean]

theorem topClean_forall {p : String → String → Bool} {l : List Node} :
    topClean p l = true ↔ ∀ n ∈ l, markerIs p n = false := by
  simp [topClean, List.all_eq_true]

/-! # Sweep lemmas -/

theorem markerIs_sweepN (p : String → String → Bool) (q : Node → Bool) (n : Node) :
    markerIs p (sweepN q n) = markerIs p n := by
  cases n <;> rfl

mutual
theorem sweepN_pres (q : Node → Bool) (p : String → String → Bool) :
    ∀ n, cleanN p n = true → cleanN p (sweepN q n) = true
  | .text _, h => h
  | .elem t a cs, h => by
    rcases cleanN_elem_iff.mp h with ⟨h1, h2⟩
    rw [sweepN]
    exact cleanN_elem_iff.mpr ⟨by rw [markerIs_kids p t a _ cs]; exact h1,
      sweepL_pres q p cs h2⟩
theorem sweepL_pres (q : Node → Bool) (p : String → String → Bool) :
    ∀ l, cleanL p l = true → cleanL p (sweepL q l) = true
  | [], _ => rfl
  | n :: rest, h => by
    rw [cleanL, Bool.and_eq_true] at h
    rw [sweepL]
    by_cases hq : q n = true
    · simp only [hq, if_true]
      exact sweepL_pres q p rest h.2
    · simp only [Bool.not_eq_true] at hq
      simp only [hq, Bool.false_eq_true, if_false, cleanL, Bool.and_eq_true]
      exact ⟨sweepN_pres q p n h.1, sweepL_pres q p rest h.2⟩
end

mutual
theorem sweepN_self (p : String → String → Bool) :
    ∀ n, markerIs p n = false → cleanN p (sweepN (markerIs p) n) = true
  | .text _, _ => rfl
  | .elem t a cs, h => by
    rw [sweepN]
    exact cleanN_elem_iff.mpr ⟨by rw [markerIs_kids p t a _ cs]; exact h,
      sweepL_self p cs⟩
theorem sweepL_self (p : String → String → Bool) :
    ∀ l, cleanL p (sweepL (markerIs p) l) = true
  | [] => rfl
  | n :: rest => by
    rw [sweepL]
    cases hq : markerIs p n with
    | true =>
      simp only [if_true]
      exact sweepL_self p rest
    | false =>
      simp only [Bool.false_eq_true, if_false, cleanL, Bool.and_eq_true]
      exact ⟨sweepN_self p n hq, sweepL_self p rest⟩
end

mutual
theorem sweepN_id (p : String → String → Bool) :
    ∀ n, cleanN p n = true → sweepN (markerIs p) n = n
  | .text _, _ => rfl
  | .elem t a cs, h => by
    rw [sweepN, sweepL_id p cs (cleanN_elem_iff.mp h).2]
theorem sweepL_id (p : String → String → Bool) :
    ∀ l, cleanL p l = true → sweepL (markerIs p) l = l
  | [], _ => rfl
  | n :: rest, h => by
    rw [cleanL, Bool.and_eq_true] at h
    rw [sweepL]
    simp only [cleanN_markerIs h.1, Bool.false_eq_true, if_false]
    rw [sweepN_id p n h.1, sweepL_id p rest h.2]
end

theorem sweepL_topClean (q : Node → Bool) (p : String → String → Bool) :
    ∀ l, topClean p l = true → topClean p (sweepL q l) = true := by
  intro l
  induction l with
  | nil => intro h; exact h
  | cons n rest ih =>
    intro h
    rw [topClean_cons, Bool.and_eq_true] at h
    rw [sweepL]
    by_cases hq : q n = true
    · simp only [hq, if_true]
      exact ih h.2
    · simp only [Bool.not_eq_true] at hq
      simp only [hq, Bool.false_eq_true, if_false, topClean_cons, Bool.and_eq_true]
      exact ⟨by rw [markerIs_sweepN]; exact h.1, ih h.2⟩

/-! # Alert pass lemmas -/

mutual
theorem findFirstPN_size : ∀ n pn, findFirstPN n = some pn → sizeN pn ≤ sizeN n
  | .text s, pn, h => by
    rw [findFirstPN] at h
    exact Option.noConfusion h
  | .elem t a cs, pn, h => by
    rw [findFirstPN] at h
    by_cases ht : (t == "p") = true
    · simp only [ht, if_true, Option.some.injEq] at h
      subst h
      exact le_rfl
    · simp only [Bool.not_eq_true] at ht
      simp only [ht, Bool.false_eq_true, if_false] at h
      have h2 := findFirstP_size cs pn h
      have hsz : sizeN (Node.elem t a cs) = sizeL cs + 1 := rfl
      omega
theorem findFirstP_size : ∀ l pn, findFirstP l = some pn → sizeN pn ≤ sizeL l
  | [], pn, h => by
    rw [findFirstP] at h
    exact Option.noConfusion h
  | n :: rest, pn, h => by
    rw [findFirstP] at h
    rw [sizeL_cons]
    cases hn : findFirstPN n with
    | some r =>
      simp only [hn, Option.some.injEq] at h
      subst h
      have h2 := findFirstPN_size n r hn
      omega
    | none =>
      simp only [hn] at h
      have h2 := findFirstP_size rest pn h
      omega
end

theorem alert_fuel : ∀ f1,
    (∀ n f2, sizeN n ≤ f1 → sizeN n ≤ f2 → alertGo f1 n = alertGo f2 n) ∧
    (∀ l f2, sizeL l ≤ f1 → sizeL l ≤ f2 → alertGoL f1 l = alertGoL f2 l) := by
  intro f1
  induction f1 with
  | zero =>
    constructor
    · intro n f2 h1 _
      have := sizeN_pos n
      omega
    · intro l f2 h1 _
      rw [sizeL_le_zero h1]
      cases f2 <;> rfl
  | succ f ih =>
    constructor
    · intro n f2 h1 h2
      match f2, n with
      | f2, .text s =>
        cases f2 with
        | zero => have := sizeN_pos (Node.text s); omega
        | succ f2x => rfl
      | f2, .elem t a cs =>
        have hcs : sizeL cs ≤ f := by
          have : sizeN (Node.elem t a cs) = sizeL cs + 1 := rfl
          omega
        cases f2 with
        | zero => have := sizeN_pos (Node.elem t a cs); omega
        | succ f2x =>
          have hcs2 : sizeL cs ≤ f2x := by
            have : sizeN (Node.elem t a cs) = sizeL cs + 1 := rfl
            omega
          rw [alertGo, alertGo]
          cases hw : lookAttr "data-wet" a with
          | none => rw [ih.2 cs f2x hcs hcs2]
          | some w =>
            by_cases hpre : (strStarts "alert-" w) = true
            · simp only [hpre, if_true]
              cases hfp : findFirstP cs with
              | none => rfl
              | some pn =>
                have hpn := findFirstP_size cs pn hfp
                have heq : alertGo f pn = alertGo f2x pn :=
                  ih.1 pn f2x (le_trans hpn hcs) (le_trans hpn hcs2)
                exact congrArg
                  (fun x => Node.elem "section"
                    [("class", "alert alert-" ++ w.drop 6)] [x]) heq
            · simp only [Bool.not_eq_true] at hpre
              simp only [hpre, Bool.false_eq_true, if_false]
              rw [ih.2 cs f2x hcs hcs2]
    · intro l f2 h1 h2
      match f2, l with
      | f2, [] => cases f2 <;> rfl
      | f2, n :: rest =>
        rw [sizeL_cons] at h1 h2
        have hn := sizeN_pos n
        cases f2 with
        | zero => omega
        | succ f2x =>
          rw [alertGoL, alertGoL,
            ih.1 n f2x (by omega) (by omega),
            ih.2 rest f2x (by omega) (by omega)]

theorem alertGo_congr {f1 f2 : Nat} {n : Node} (h1 : sizeN n ≤ f1)
    (h2 : sizeN n ≤ f2) : alertGo f1 n = alertGo f2 n :=
  (alert_fuel f1).1 n f2 h1 h2

theorem alert_clean : ∀ fuel,
    (∀ n, sizeN n ≤ fuel → cleanN alertPred (alertGo fuel n) = true) ∧
    (∀ l, sizeL l ≤ fuel → cleanL alertPred (alertGoL fuel l) = true) := by
  intro fuel
  induction fuel with
  | zero =>
    constructor
    · intro n h
      have := sizeN_pos n
      omega
    · intro l h
      rw [sizeL_le_zero h]
      rfl
  | succ f ih =>
    constructor
    · intro n h
      match n with
      | .text s => rfl
      | .elem t a cs =>
        have hcs : sizeL cs ≤ f := by
          have : sizeN (Node.elem t a cs) = sizeL cs + 1 := rfl
          omega
        rw [alertGo]
        cases hw : lookAttr "data-wet" a with
        | none =>
          refine cleanN_elem_iff.mpr ⟨?_, ih.2 cs hcs⟩
          rw [markerIs]
          rw [hw]
        | some w =>
          by_cases hpre : (strStarts "alert-" w) = true
          · simp only [hpre, if_true]
            refine cleanN_elem_iff.mpr ⟨rfl, ?_⟩
            cases hfp : findFirstP cs with
            | none => rfl
            | some pn =>
              have hpn := findFirstP_size cs pn hfp
              show cleanL alertPred [alertGo f pn] = true
              rw [cleanL, Bool.and_eq_true]
              exact ⟨ih.1 pn (le_trans hpn hcs), rfl⟩
          · simp only [Bool.not_eq_true] at hpre
            simp only [hpre, Bool.false_eq_true, if_false]
            refine cleanN_elem_iff.mpr ⟨?_, ih.2 cs hcs⟩
            simp only [markerIs, hw, alertPred, hpre]
    · intro l h
      match l with
      | [] => rfl
      | n :: rest =>
        rw [sizeL_cons] at h
        have hn := sizeN_pos n
        rw [alertGoL, cleanL, Bool.and_eq_true]
        exact ⟨ih.1 n (by omega), ih.2 rest (by omega)⟩

theorem alertStage_clean (l : List Node) :
    cleanL alertPred (alertStage l) = true :=
  (alert_clean (sizeL l)).2 l le_rfl

/-! # Attribute-rewrite lemmas -/

theorem lookWet_setClass (v : String) (a : List (String × String)) :
    lookAttr "data-wet" (setAttr "class" v a) = lookAttr "data-wet" a := by
  induction a with
  | nil => rfl
  | cons kv rest ih =>
    obtain ⟨a1, v1⟩ := kv
    rw [setAttr]
    by_cases h : (a1 == "class") = true
    · have ha : a1 = "class" := by simpa using h
      subst ha
      simp only [h, if_true]
      rfl
    · simp only [Bool.not_eq_true] at h
      simp only [h, Bool.false_eq_true, if_false]
      rw [lookAttr, lookAttr, ih]

theorem markerIs_setClass (p : String → String → Bool) (v : String) (n : Node) :
    markerIs p (setClassAttr v n) = markerIs p n := by
  cases n with
  | text s => rfl
  | elem t a cs => simp only [setClassAttr, markerIs, lookWet_setClass]

theorem cleanN_setClass (p : String → String → Bool) (v : String) (n : Node) :
    cleanN p (setClassAttr v n) = cleanN p n := by
  cases n with
  | text s => rfl
  | elem t a cs =>
    show cleanN p (.elem t (setAttr "class" v a) cs) = cleanN p (.elem t a cs)
    have hm := markerIs_setClass p v (.elem t a cs)
    rw [setClassAttr] at hm
    rw [cleanN, cleanN, hm]

theorem kidsClean_setClass (p : String → String → Bool) (v : String) (n : Node) :
    kidsClean p (setClassAttr v n) = kidsClean p n := by
  cases n <;> rfl

theorem markerIs_addClass (p : String → String → Bool) (c : String) (n : Node) :
    markerIs p (addClass c n) = markerIs p n := by
  cases n with
  | text s => rfl
  | elem t a cs =>
    rw [addClass]
    cases lookAttr "class" a with
    | none => simp only [markerIs, lookWet_setClass]
    | some s =>
      by_cases h : (s.splitOn " ").contains c = true
      · simp only [h, if_true]
      · simp only [Bool.not_eq_true] at h
        simp only [h, Bool.false_eq_true, if_false, markerIs, lookWet_setClass]

theorem cleanN_addClass (p : String → String → Bool) (c : String) (n : Node) :
    cleanN p (addClass c n) = cleanN p n := by
  cases n with
  | text s => rfl
  | elem t a cs =>
    rw [addClass]
    cases lookAttr "class" a with
    | none =>
      show cleanN p (.elem t (setAttr "class" c a) cs) = cleanN p (.elem t a cs)
      exact cleanN_setClass p c (.elem t a cs)
    | some s =>
      by_cases h : (s.splitOn " ").contains c = true
      · simp only [h, if_true]
      · simp only [Bool.not_eq_true] at h
        simp only [h, Bool.false_eq_true, if_false]
        exact cleanN_setClass p (s ++ " " ++ c) (.elem t a cs)

theorem kidsClean_addClass (p : String → String → Bool) (c : String) (n : Node) :
    kidsClean p (addClass c n) = kidsClean p n := by
  cases n with
  | text s => rfl
  | elem t a cs =>
    rw [addClass]
    cases lookAttr "class" a with
    | none => rfl
    | some s =>
      by_cases h : (s.splitOn " ").contains c = true
      · simp only [h, if_true]
      · simp only [Bool.not_eq_true] at h
        simp only [h, Bool.false_eq_true, if_false]
        rfl

/-! # Structural helper lemmas -/

theorem markerIs_wet (p : String → String → Bool) (n : Node) :
    markerIs p n = (match n.wet with | some w => p n.tagName w | none => false) := by
  cases n <;> rfl

theorem levelOk_cons {p : String → String → Bool} {n : Node} {l : List Node} :
    levelOk p (n :: l) = (kidsClean p n && levelOk p l) := by
  simp [levelOk]

theorem kidsClean_of_clean {p : String → String → Bool} {n : Node}
    (h : cleanN p n = true) : kidsClean p n = true := by
  cases n with
  | text s => rfl
  | elem t a cs => exact (cleanN_elem_iff.mp h).2

theorem cleanN_of_parts {p : String → String → Bool} {n : Node}
    (h1 : markerIs p n = false) (h2 : kidsClean p n = true) : cleanN p n = true := by
  cases n with
  | text s => rfl
  | elem t a cs => exact cleanN_elem_iff.mpr ⟨h1, h2⟩

theorem topClean_of_cleanL {p : String → String → Bool} {l : List Node}
    (h : cleanL p l = true) : topClean p l = true := by
  rw [topClean_forall]
  intro n hn
  exact cleanN_markerIs (cleanL_forall.mp h n hn)

theorem levelOk_of_cleanL {p : String → String → Bool} {l : List Node}
    (h : cleanL p l = true) : levelOk p l = true := by
  rw [levelOk, List.all_eq_true]
  intro n hn
  exact kidsClean_of_clean (cleanL_forall.mp h n hn)

/-! # Table pass lemmas -/

theorem tableApply_length (k : String) : ∀ l : List Node,
    (tableApply k l).length = l.length := by
  intro l
  induction l with
  | nil => rfl
  | cons n rest ih =>
    rw [tableApply]
    by_cases ht : isTableElem n = true
    · simp only [ht, if_true]
      by_cases hk : (k == "table-responsive") = true
      · simp only [hk, if_true]
        by_cases hm : isTableMarker n = true <;> simp [hm, List.length]
      · simp only [Bool.not_eq_true] at hk
        simp only [hk, Bool.false_eq_true, if_false]
        cases tableClassMap k <;> simp [List.length]
    · simp only [Bool.not_eq_true] at ht
      simp only [ht, Bool.false_eq_true, if_false, List.length, ih]

theorem tableApply_clean (k : String) (p : String → String → Bool) :
    ∀ l, cleanL p l = true → cleanL p (tableApply k l) = true := by
  intro l
  induction l with
  | nil => intro h; exact h
  | cons n rest ih =>
    intro h
    rw [cleanL, Bool.and_eq_true] at h
    rw [tableApply]
    by_cases ht : isTableElem n = true
    · simp only [ht, if_true]
      by_cases hk : (k == "table-responsive") = true
      · simp only [hk, if_true]
        by_cases hm : isTableMarker n = true
        · simp only [hm, if_true, cleanL, Bool.and_eq_true]
          exact ⟨rfl, h.2⟩
        · simp only [Bool.not_eq_true] at hm
          simp only [hm, Bool.false_eq_true, if_false, cleanL, Bool.and_eq_true]
          refine ⟨cleanN_elem_iff.mpr ⟨rfl, ?_⟩, h.2⟩
          rw [cleanL, Bool.and_eq_true]
          exact ⟨h.1, rfl⟩
      · simp only [Bool.not_eq_true] at hk
        simp only [hk, Bool.false_eq_true, if_false]
        cases tableClassMap k with
        | none =>
          simp only [cleanL, Bool.and_eq_true]
          exact ⟨h.1, h.2⟩
        | some cls =>
          simp only [cleanL, Bool.and_eq_true, cleanN_setClass]
          exact ⟨h.1, h.2⟩
    · simp only [Bool.not_eq_true] at ht
      simp only [ht, Bool.false_eq_true, if_false, cleanL, Bool.and_eq_true]
      exact ⟨h.1, ih h.2⟩

theorem tableApply_levelOk (k : String) :
    ∀ l, levelOk tablePred l = true → levelOk tablePred (tableApply k l) = true := by
  intro l
  induction l with
  | nil => intro h; exact h
  | cons n rest ih =>
    intro h
    rw [levelOk_cons, Bool.and_eq_true] at h
    rw [tableApply]
    by_cases ht : isTableElem n = true
    · simp only [ht, if_true]
      by_cases hk : (k == "table-responsive") = true
      · simp only [hk, if_true]
        by_cases hm : isTableMarker n = true
        · simp only [hm, if_true, levelOk_cons, Bool.and_eq_true]
          exact ⟨rfl, h.2⟩
        · simp only [Bool.not_eq_true] at hm
          simp only [hm, Bool.false_eq_true, if_false, levelOk_cons, Bool.and_eq_true]
          refine ⟨?_, h.2⟩
          show cleanL tablePred [n] = true
          rw [cleanL, Bool.and_eq_true]
          exact ⟨cleanN_of_parts hm h.1, rfl⟩
      · simp only [Bool.not_eq_true] at hk
        simp only [hk, Bool.false_eq_true, if_false]
        cases tableClassMap k with
        | none =>
          rw [levelOk_cons, Bool.and_eq_true]
          exact ⟨h.1, h.2⟩
        | some cls =>
          simp only [levelOk_cons, Bool.and_eq_true, kidsClean_setClass]
          exact ⟨h.1, h.2⟩
    · simp only [Bool.not_eq_true] at ht
      simp only [ht, Bool.false_eq_true, if_false, levelOk_cons, Bool.and_eq_true]
      exact ⟨h.1, ih h.2⟩

theorem tableSibsF_clean : ∀ fuel l, l.length ≤ fuel →
    levelOk tablePred l = true → cleanL tablePred (tableSibsF fuel l) = true := by
  intro fuel
  induction fuel with
  | zero =>
    intro l hl _
    rw [List.length_eq_zero.mp (Nat.le_zero.mp hl)]
    rfl
  | succ f ih =>
    intro l hl h
    match l with
    | [] => rfl
    | n :: rest =>
      rw [levelOk_cons, Bool.and_eq_true] at h
      rw [List.length_cons] at hl
      rw [tableSibsF]
      cases hw : n.wet with
      | some w =>
        by_cases hpre : (strStarts "table-" w) = true
        · simp only [hpre, if_true]
          exact ih (tableApply w rest)
            (by rw [tableApply_length]; omega) (tableApply_levelOk w rest h.2)
        · simp only [Bool.not_eq_true] at hpre
          simp only [hpre, Bool.false_eq_true, if_false, cleanL, Bool.and_eq_true]
          refine ⟨cleanN_of_parts ?_ h.1, ih rest (by omega) h.2⟩
          rw [markerIs_wet, hw]
          exact hpre
      | none =>
        simp only [cleanL, Bool.and_eq_true]
        refine ⟨cleanN_of_parts ?_ h.1, ih rest (by omega) h.2⟩
        rw [markerIs_wet, hw]

mutual
theorem tablePassNode_kids : ∀ n, kidsClean tablePred (tablePassNode n) = true
  | .text _ => rfl
  | .elem t a cs => by
    rw [tablePassNode]
    show cleanL tablePred (tableSibs (tablePassList cs)) = true
    exact tableSibsF_clean _ _ le_rfl (tablePassList_level cs)
theorem tablePassList_level : ∀ l, levelOk tablePred (tablePassList l) = true
  | [] => rfl
  | n :: rest => by
    rw [tablePassList, levelOk_cons, Bool.and_eq_true]
    exact ⟨tablePassNode_kids n, tablePassList_level rest⟩
end

theorem tableStage_clean (l : List Node) :
    cleanL tablePred (tableStage l) = true :=
  tableSibsF_clean _ _ le_rfl (tablePassList_level l)

theorem tableSibsF_pres (p : String → String → Bool) : ∀ fuel l, l.length ≤ fuel →
    cleanL p l = true → cleanL p (tableSibsF fuel l) = true := by
  intro fuel
  induction fuel with
  | zero =>
    intro l hl h
    rw [List.length_eq_zero.mp (Nat.le_zero.mp hl)]
    rfl
  | succ f ih =>
    intro l hl h
    match l with
    | [] => rfl
    | n :: rest =>
      rw [cleanL, Bool.and_eq_true] at h
      rw [List.length_cons] at hl
      rw [tableSibsF]
      cases hw : n.wet with
      | some w =>
        by_cases hpre : (strStarts "table-" w) = true
        · simp only [hpre, if_true]
          exact ih (tableApply w rest)
            (by rw [tableApply_length]; omega) (tableApply_clean w p rest h.2)
        · simp only [Bool.not_eq_true] at hpre
          simp only [hpre, Bool.false_eq_true, if_false, cleanL, Bool.and_eq_true]
          exact ⟨h.1, ih rest (by omega) h.2⟩
      | none =>
        simp only [cleanL, Bool.and_eq_true]
        exact ⟨h.1, ih rest (by omega) h.2⟩

mutual
theorem tablePassNode_pres (p : String → String → Bool) :
    ∀ n, cleanN p n = true → cleanN p (tablePassNode n) = true
  | .text _, h => h
  | .elem t a cs, h => by
    rcases cleanN_elem_iff.mp h with ⟨h1, h2⟩
    rw [tablePassNode]
    exact cleanN_elem_iff.mpr ⟨by rw [markerIs_kids p t a _ cs]; exact h1,
      tableSibsF_pres p _ _ le_rfl (tablePassList_pres p cs h2)⟩
theorem tablePassList_pres (p : String → String → Bool) :
    ∀ l, cleanL p l = true → cleanL p (tablePassList l) = true
  | [], _ => rfl
  | n :: rest, h => by
    rw [cleanL, Bool.and_eq_true] at h
    rw [tablePassList, cleanL, Bool.and_eq_true]
    exact ⟨tablePassNode_pres p n h.1, tablePassList_pres p rest h.2⟩
end

theorem tableStage_pres (p : String → String → Bool) (l : List Node)
    (h : cleanL p l = true) : cleanL p (tableStage l) = true :=
  tableSibsF_pres p _ _ le_rfl (tablePassList_pres p l h)

theorem tableSibsF_id : ∀ (fuel : Nat) (l : List Node),
    topClean tablePred l = true → tableSibsF fuel l = l := by
  intro fuel
  induction fuel with
  | zero => intro l _; rfl
  | succ f ih =>
    intro l h
    match l with
    | [] => rfl
    | n :: rest =>
      rw [topClean_cons, Bool.and_eq_true, Bool.not_eq_true'] at h
      rw [tableSibsF]
      cases hw : n.wet with
      | some w =>
        have hpre : (strStarts "table-" w) = false := by
          have := h.1
          rw [markerIs_wet, hw] at this
          exact this
        simp only [hpre, Bool.false_eq_true, if_false, ih rest h.2]
      | none => rw [ih rest h.2]

mutual
theorem tablePassNode_id : ∀ n, cleanN tablePred n = true → tablePassNode n = n
  | .text _, _ => rfl
  | .elem t a cs, h => by
    rw [tablePassNode, tablePassList_id cs (cleanN_elem_iff.mp h).2]
    show Node.elem t a (tableSibsF cs.length cs) = Node.elem t a cs
    rw [tableSibsF_id cs.length cs (topClean_of_cleanL (cleanN_elem_iff.mp h).2)]
theorem tablePassList_id : ∀ l, cleanL tablePred l = true → tablePassList l = l
  | [], _ => rfl
  | n :: rest, h => by
    rw [cleanL, Bool.and_eq_true] at h
    rw [tablePassList, tablePassNode_id n h.1, tablePassList_id rest h.2]
end

theorem tableStage_id (l : List Node) (h : cleanL tablePred l = true) :
    tableStage l = l := by
  rw [tableStage, tablePassList_id l h]
  exact tableSibsF_id _ _ (topClean_of_cleanL h)

/-! # Details pass lemmas -/

theorem isContentM_eq : isContentM = markerIs contentPred := rfl

theorem isSummaryM_eq : isSummaryM = markerIs summaryPred := rfl

theorem innerNodes_clean {p : String → String → Bool} {n : Node}
    (h : cleanN p n = true) : cleanL p (innerNodes n) = true := by
  cases n with
  | text s => rfl
  | elem t a cs => exact (cleanN_elem_iff.mp h).2

theorem spanContent_mem1 : ∀ l : List Node, ∀ x ∈ (spanContent l).1, x ∈ l := by
  intro l
  induction l with
  | nil => intro x hx; exact absurd hx (by simp [spanContent])
  | cons n rest ih =>
    intro x hx
    rw [spanContent] at hx
    by_cases h : isContentM n = true
    · simp only [h, if_true, List.mem_cons] at hx
      rcases hx with hx | hx
      · exact List.mem_cons.mpr (Or.inl hx)
      · exact List.mem_cons.mpr (Or.inr (ih x hx))
    · simp only [Bool.not_eq_true] at h
      simp only [h, Bool.false_eq_true, if_false, List.not_mem_nil] at hx

theorem spanContent_mem2 : ∀ l : List Node, ∀ x ∈ (spanContent l).2, x ∈ l := by
  intro l
  induction l with
  | nil => intro x hx; exact absurd hx (by simp [spanContent])
  | cons n rest ih =>
    intro x hx
    rw [spanContent] at hx
    by_cases h : isContentM n = true
    · simp only [h, if_true] at hx
      exact List.mem_cons.mpr (Or.inr (ih x hx))
    · simp only [Bool.not_eq_true] at h
      simp only [h, Bool.false_eq_true, if_false] at hx
      exact hx

theorem spanContent_len2 : ∀ l : List Node, (spanContent l).2.length ≤ l.length := by
  intro l
  induction l with
  | nil => simp [spanContent]
  | cons n rest ih =>
    rw [spanContent]
    by_cases h : isContentM n = true
    · simp only [h, if_true, List.length_cons]
      omega
    · simp only [Bool.not_eq_true] at h
      simp only [h, Bool.false_eq_true, if_false]
      exact le_rfl

theorem mkDetails_clean {p : String → String → Bool} {sumKids : List Node}
    {contents : List Node} (h1 : cleanL p sumKids = true)
    (h2 : ∀ c ∈ contents, cleanN p c = true) :
    cleanN p (mkDetails sumKids contents) = true := by
  refine cleanN_elem_iff.mpr ⟨rfl, ?_⟩
  rw [cleanL, Bool.and_eq_true]
  constructor
  · exact cleanN_elem_iff.mpr ⟨rfl, h1⟩
  · rw [cleanL_forall]
    intro x hx
    rcases List.mem_map.mp hx with ⟨c, hc, rfl⟩
    exact cleanN_elem_iff.mpr ⟨rfl, innerNodes_clean (h2 c hc)⟩

theorem detailsF_pres (p : String → String → Bool) : ∀ fuel l, l.length ≤ fuel →
    cleanL p l = true → cleanL p (detailsF fuel l) = true := by
  intro fuel
  induction fuel with
  | zero =>
    intro l hl _
    rw [List.length_eq_zero.mp (Nat.le_zero.mp hl)]
    rfl
  | succ f ih =>
    intro l hl h
    match l with
    | [] => rfl
    | n :: rest =>
      rw [cleanL, Bool.and_eq_true] at h
      rw [List.length_cons] at hl
      rw [detailsF]
      by_cases hs : isSummaryM n = true
      · simp only [hs, if_true, cleanL, Bool.and_eq_true]
        constructor
        · refine mkDetails_clean (innerNodes_clean h.1) ?_
          intro c hc
          exact cleanL_forall.mp h.2 c (spanContent_mem1 rest c hc)
        · refine ih (spanContent rest).2 ?_ ?_
          · have := spanContent_len2 rest
            omega
          · rw [cleanL_forall]
            intro x hx
            exact cleanL_forall.mp h.2 x (spanContent_mem2 rest x hx)
      · simp only [Bool.not_eq_true] at hs
        simp only [hs, Bool.false_eq_true, if_false, cleanL, Bool.and_eq_true]
        exact ⟨h.1, ih rest (by omega) h.2⟩

theorem detailsF_top : ∀ fuel l, topClean summaryPred (detailsF fuel l) = true ∨
    ¬ (l.length ≤ fuel) := by
  intro fuel
  induction fuel with
  | zero =>
    intro l
    match l with
    | [] => exact Or.inl rfl
    | n :: rest => exact Or.inr (by simp)
  | succ f ih =>
    intro l
    match l with
    | [] => exact Or.inl rfl
    | n :: rest =>
      rw [List.length_cons]
      by_cases hlen : rest.length ≤ f
      case neg => exact Or.inr (by omega)
      refine Or.inl ?_
      rw [detailsF]
      by_cases hs : isSummaryM n = true
      · simp only [hs, if_true, topClean_cons, Bool.and_eq_true]
        have hlen2 : (spanContent rest).2.length ≤ f := by
          have := spanContent_len2 rest
          omega
        rcases ih (spanContent rest).2 with hgood | hbad
        · exact ⟨rfl, hgood⟩
        · exact absurd hlen2 hbad
      · simp only [Bool.not_eq_true] at hs
        simp only [hs, Bool.false_eq_true, if_false, topClean_cons, Bool.and_eq_true]
        rcases ih rest with hgood | hbad
        · refine ⟨?_, hgood⟩
          rw [← isSummaryM_eq, hs]
          rfl
        · exact absurd hlen hbad

theorem detailsStage_pres (p : String → String → Bool) (l : List Node)
    (h : cleanL p l = true) : cleanL p (detailsStage l) = true :=
  sweepL_pres isContentM p _ (detailsF_pres p _ l le_rfl h)

theorem detailsStage_content (l : List Node) :
    cleanL contentPred (detailsStage l) = true := by
  rw [detailsStage, isContentM_eq]
  exact sweepL_self contentPred _

theorem detailsStage_top (l : List Node) :
    topClean summaryPred (detailsStage l) = true := by
  rcases detailsF_top l.length l with h | h
  · exact sweepL_topClean isContentM summaryPred _ h
  · exact absurd le_rfl h

/-! # Accordion pass lemmas -/

theorem appendKid_clean {p : String → String → Bool} {child item : Node}
    (h1 : cleanN p item = true) (h2 : cleanN p child = true) :
    cleanN p (appendKid child item) = true := by
  cases item with
  | text s => exact h1
  | elem t a cs =>
    rcases cleanN_elem_iff.mp h1 with ⟨hm, hc⟩
    rw [appendKid]
    refine cleanN_elem_iff.mpr ⟨by rw [markerIs_kids p t a _ cs]; exact hm, ?_⟩
    rw [cleanL_append, Bool.and_eq_true]
    exact ⟨hc, by rw [cleanL, Bool.and_eq_true]; exact ⟨h2, rfl⟩⟩

theorem pushPanel_clean {p : String → String → Bool} {child : Node}
    {r : List Node} (hr : cleanL p r = true) (hc : cleanN p child = true) :
    cleanL p (pushPanel child r) = true := by
  cases r with
  | nil =>
    rw [pushPanel, cleanL, Bool.and_eq_true]
    refine ⟨cleanN_elem_iff.mpr ⟨rfl, ?_⟩, rfl⟩
    rw [cleanL, Bool.and_eq_true]
    refine ⟨cleanN_elem_iff.mpr ⟨rfl, rfl⟩, ?_⟩
    rw [cleanL, Bool.and_eq_true]
    exact ⟨hc, rfl⟩
  | cons item more =>
    rw [cleanL, Bool.and_eq_true] at hr
    rw [pushPanel, cleanL, Bool.and_eq_true]
    exact ⟨appendKid_clean hr.1 hc, hr.2⟩

theorem accStep_len : ∀ (l r : List Node), (accStep l r).2.length ≤ l.length := by
  intro l
  induction l with
  | nil => intro r; simp [accStep]
  | cons n rest ih =>
    intro r
    rw [accStep]
    by_cases he : isDivWet "accordion-end" n = true
    · simp only [he, if_true, List.length_cons]
      omega
    · simp only [Bool.not_eq_true] at he
      simp only [he, Bool.false_eq_true, if_false]
      by_cases hh : isDivWet "accordion-heading" n = true
      · simp only [hh, if_true, List.length_cons]
        exact le_trans (ih _) (by omega)
      · simp only [Bool.not_eq_true] at hh
        simp only [hh, Bool.false_eq_true, if_false]
        by_cases hp : isDivWet "accordion-panel" n = true
        · simp only [hp, if_true, List.length_cons]
          exact le_trans (ih _) (by omega)
        · simp only [Bool.not_eq_true] at hp
          simp only [hp, Bool.false_eq_true, if_false]
          by_cases hq : r.isEmpty = true
          · simp only [hq, if_true]
            exact le_rfl
          · simp only [Bool.not_eq_true] at hq
            simp only [hq, Bool.false_eq_true, if_false, List.length_cons]
            exact le_trans (ih _) (by omega)

theorem accStep_rest_mem : ∀ (l r : List Node), ∀ x ∈ (accStep l r).2, x ∈ l := by
  intro l
  induction l with
  | nil => intro r x hx; exact absurd hx (by simp [accStep])
  | cons n rest ih =>
    intro r x hx
    rw [accStep] at hx
    by_cases he : isDivWet "accordion-end" n = true
    · simp only [he, if_true] at hx
      exact List.mem_cons.mpr (Or.inr hx)
    · simp only [Bool.not_eq_true] at he
      simp only [he, Bool.false_eq_true, if_false] at hx
      by_cases hh : isDivWet "accordion-heading" n = true
      · simp only [hh, if_true] at hx
        exact List.mem_cons.mpr (Or.inr (ih _ x hx))
      · simp only [Bool.not_eq_true] at hh
        simp only [hh, Bool.false_eq_true, if_false] at hx
        by_cases hp : isDivWet "accordion-panel" n = true
        · simp only [hp, if_true] at hx
          exact List.mem_cons.mpr (Or.inr (ih _ x hx))
        · simp only [Bool.not_eq_true] at hp
          simp only [hp, Bool.false_eq_true, if_false] at hx
          by_cases hq : r.isEmpty = true
          · simp only [hq, if_true] at hx
            exact hx
          · simp only [Bool.not_eq_true] at hq
            simp only [hq, Bool.false_eq_true, if_false] at hx
            exact List.mem_cons.mpr (Or.inr (ih _ x hx))

theorem accStep_items_clean {p : String → String → Bool} : ∀ (l r : List Node),
    cleanL p l = true → cleanL p r = true → cleanL p (accStep l r).1 = true := by
  intro l
  induction l with
  | nil => intro r _ hr; exact hr
  | cons n rest ih =>
    intro r hl hr
    rw [cleanL, Bool.and_eq_true] at hl
    rw [accStep]
    by_cases he : isDivWet "accordion-end" n = true
    · simp only [he, if_true]
      exact hr
    · simp only [Bool.not_eq_true] at he
      simp only [he, Bool.false_eq_true, if_false]
      by_cases hh : isDivWet "accordion-heading" n = true
      · simp only [hh, if_true]
        refine ih _ hl.2 ?_
        rw [cleanL, Bool.and_eq_true]
        refine ⟨cleanN_elem_iff.mpr ⟨rfl, ?_⟩, hr⟩
        rw [cleanL, Bool.and_eq_true]
        exact ⟨cleanN_elem_iff.mpr ⟨rfl, innerNodes_clean hl.1⟩, rfl⟩
      · simp only [Bool.not_eq_true] at hh
        simp only [hh, Bool.false_eq_true, if_false]
        have hpp : cleanL p (pushPanel (mkP (innerNodes n)) r) = true :=
          pushPanel_clean hr (cleanN_elem_iff.mpr ⟨rfl, innerNodes_clean hl.1⟩)
        by_cases hp : isDivWet "accordion-panel" n = true
        · simp only [hp, if_true]
          exact ih _ hl.2 hpp
        · simp only [Bool.not_eq_true] at hp
          simp only [hp, Bool.false_eq_true, if_false]
          by_cases hq : r.isEmpty = true
          · simp only [hq, if_true]
            exact hr
          · simp only [Bool.not_eq_true] at hq
            simp only [hq, Bool.false_eq_true, if_false]
            exact ih _ hl.2 hpp

theorem accPassF_pres (p : String → String → Bool) : ∀ fuel l, l.length ≤ fuel →
    cleanL p l = true → cleanL p (accPassF fuel l) = true := by
  intro fuel
  induction fuel with
  | zero =>
    intro l hl _
    rw [List.length_eq_zero.mp (Nat.le_zero.mp hl)]
    rfl
  | succ f ih =>
    intro l hl h
    match l with
    | [] => rfl
    | n :: rest =>
      rw [cleanL, Bool.and_eq_true] at h
      rw [List.length_cons] at hl
      rw [accPassF]
      by_cases hs : isDivWet "accordion-start" n = true
      · simp only [hs, if_true, cleanL, Bool.and_eq_true]
        constructor
        · refine cleanN_elem_iff.mpr ⟨rfl, ?_⟩
          rw [cleanL_reverse]
          exact accStep_items_clean rest [] h.2 rfl
        · refine ih (accStep rest []).2 ?_ ?_
          · have := accStep_len rest []
            omega
          · rw [cleanL_forall]
            intro x hx
            exact cleanL_forall.mp h.2 x (accStep_rest_mem rest [] x hx)
      · simp only [Bool.not_eq_true] at hs
        simp only [hs, Bool.false_eq_true, if_false, cleanL, Bool.and_eq_true]
        exact ⟨h.1, ih rest (by omega) h.2⟩

theorem accPassF_top (p : String → String → Bool) : ∀ fuel l, l.length ≤ fuel →
    topClean p l = true → topClean p (accPassF fuel l) = true := by
  intro fuel
  induction fuel with
  | zero =>
    intro l hl _
    rw [List.length_eq_zero.mp (Nat.le_zero.mp hl)]
    rfl
  | succ f ih =>
    intro l hl h
    match l with
    | [] => rfl
    | n :: rest =>
      rw [topClean_cons, Bool.and_eq_true] at h
      rw [List.length_cons] at hl
      rw [accPassF]
      by_cases hs : isDivWet "accordion-start" n = true
      · simp only [hs, if_true, topClean_cons, Bool.and_eq_true]
        constructor
        · rfl
        · refine ih (accStep rest []).2 ?_ ?_
          · have := accStep_len rest []
            omega
          · rw [topClean_forall]
            intro x hx
            exact topClean_forall.mp h.2 x (accStep_rest_mem rest [] x hx)
      · simp only [Bool.not_eq_true] at hs
        simp only [hs, Bool.false_eq_true, if_false, topClean_cons, Bool.and_eq_true]
        exact ⟨h.1, ih rest (by omega) h.2⟩

theorem isAccM_eq : isAccM = markerIs accDivPred := rfl

theorem accStage_pres (p : String → String → Bool) (l : List Node)
    (h : cleanL p l = true) : cleanL p (accStage l) = true :=
  sweepL_pres isAccM p _ (accPassF_pres p _ l le_rfl h)

theorem accStage_top (p : String → String → Bool) (l : List Node)
    (h : topClean p l = true) : topClean p (accStage l) = true :=
  sweepL_topClean isAccM p _ (accPassF_top p _ l le_rfl h)

theorem accStage_accClean (l : List Node) :
    cleanL accDivPred (accStage l) = true := by
  rw [accStage, isAccM_eq]
  exact sweepL_self accDivPred _

/-! # Pagination pass lemmas -/

theorem pagStep_len : ∀ (l r : List Node), (pagStep l r).2.length ≤ l.length := by
  intro l
  induction l with
  | nil => intro r; simp [pagStep]
  | cons n rest ih =>
    intro r
    rw [pagStep]
    by_cases he : isDivWet "pagination-end" n = true
    · simp only [he, if_true, List.length_cons]
      omega
    · simp only [Bool.not_eq_true] at he
      simp only [he, Bool.false_eq_true, if_false]
      by_cases ha : isDivWet "pagination-active" n = true
      · simp only [ha, if_true, List.length_cons]
        exact le_trans (ih _) (by omega)
      · simp only [Bool.not_eq_true] at ha
        simp only [ha, Bool.false_eq_true, if_false]
        by_cases hd : isDivWet "pagination-disabled" n = true
        · simp only [hd, if_true, List.length_cons]
          exact le_trans (ih _) (by omega)
        · simp only [Bool.not_eq_true] at hd
          simp only [hd, Bool.false_eq_true, if_false]
          by_cases hi : isDivWet "pagination-item" n = true
          · simp only [hi, if_true, List.length_cons]
            exact le_trans (ih _) (by omega)
          · simp only [Bool.not_eq_true] at hi
            simp only [hi, Bool.false_eq_true, if_false]
            exact le_rfl

theorem pagStep_rest_mem : ∀ (l r : List Node), ∀ x ∈ (pagStep l r).2, x ∈ l := by
  intro l
  induction l with
  | nil => intro r x hx; exact absurd hx (by simp [pagStep])
  | cons n rest ih =>
    intro r x hx
    rw [pagStep] at hx
    by_cases he : isDivWet "pagination-end" n = true
    · simp only [he, if_true] at hx
      exact List.mem_cons.mpr (Or.inr hx)
    · simp only [Bool.not_eq_true] at he
      simp only [he, Bool.false_eq_true, if_false] at hx
      by_cases ha : isDivWet "pagination-active" n = true
      · simp only [ha, if_true] at hx
        exact List.mem_cons.mpr (Or.inr (ih _ x hx))
      · simp only [Bool.not_eq_true] at ha
        simp only [ha, Bool.false_eq_true, if_false] at hx
        by_cases hd : isDivWet "pagination-disabled" n = true
        · simp only [hd, if_true] at hx
          exact List.mem_cons.mpr (Or.inr (ih _ x hx))
        · simp only [Bool.not_eq_true] at hd
          simp only [hd, Bool.false_eq_true, if_false] at hx
          by_cases hi : isDivWet "pagination-item" n = true
          · simp only [hi, if_true] at hx
            exact List.mem_cons.mpr (Or.inr (ih _ x hx))
          · simp only [Bool.not_eq_true] at hi
            simp only [hi, Bool.false_eq_true, if_false] at hx
            exact hx

theorem pagStep_items_clean {p : String → String → Bool} : ∀ (l r : List Node),
    cleanL p r = true → cleanL p (pagStep l r).1 = true := by
  intro l
  induction l with
  | nil => intro r hr; exact hr
  | cons n rest ih =>
    intro r hr
    rw [pagStep]
    by_cases he : isDivWet "pagination-end" n = true
    · simp only [he, if_true]
      exact hr
    · simp only [Bool.not_eq_true] at he
      simp only [he, Bool.false_eq_true, if_false]
      by_cases ha : isDivWet "pagination-active" n = true
      · simp only [ha, if_true]
        refine ih _ ?_
        rw [cleanL, Bool.and_eq_true]
        exact ⟨rfl, hr⟩
      · simp only [Bool.not_eq_true] at ha
        simp only [ha, Bool.false_eq_true, if_false]
        by_cases hd : isDivWet "pagination-disabled" n = true
        · simp only [hd, if_true]
          refine ih _ ?_
          rw [cleanL, Bool.and_eq_true]
          exact ⟨rfl, hr⟩
        · simp only [Bool.not_eq_true] at hd
          simp only [hd, Bool.false_eq_true, if_false]
          by_cases hi : isDivWet "pagination-item" n = true
          · simp only [hi, if_true]
            refine ih _ ?_
            rw [cleanL, Bool.and_eq_true]
            exact ⟨rfl, hr⟩
          · simp only [Bool.not_eq_true] at hi
            simp only [hi, Bool.false_eq_true, if_false]
            exact hr

theorem pagPassF_pres (p : String → String → Bool) : ∀ fuel l, l.length ≤ fuel →
    cleanL p l = true → cleanL p (pagPassF fuel l) = true := by
  intro fuel
  induction fuel with
  | zero =>
    intro l hl _
    rw [List.length_eq_zero.mp (Nat.le_zero.mp hl)]
    rfl
  | succ f ih =>
    intro l hl h
    match l with
    | [] => rfl
    | n :: rest =>
      rw [cleanL, Bool.and_eq_true] at h
      rw [List.length_cons] at hl
      rw [pagPassF]
      by_cases hs : isDivWet "pagination-start" n = true
      · simp only [hs, if_true, cleanL, Bool.and_eq_true]
        constructor
        · refine cleanN_elem_iff.mpr ⟨rfl, ?_⟩
          rw [cleanL, Bool.and_eq_true]
          refine ⟨cleanN_elem_iff.mpr ⟨rfl, ?_⟩, rfl⟩
          rw [cleanL_reverse]
          exact pagStep_items_clean rest [] rfl
        · refine ih (pagStep rest []).2 ?_ ?_
          · have := pagStep_len rest []
            omega
          · rw [cleanL_forall]
            intro x hx
            exact cleanL_forall.mp h.2 x (pagStep_rest_mem rest [] x hx)
      · simp only [Bool.not_eq_true] at hs
        simp only [hs, Bool.false_eq_true, if_false, cleanL, Bool.and_eq_true]
        exact ⟨h.1, ih rest (by omega) h.2⟩

theorem pagPassF_top (p : String → String → Bool) : ∀ fuel l, l.length ≤ fuel →
    topClean p l = true → topClean p (pagPassF fuel l) = true := by
  intro fuel
  induction fuel with
  | zero =>
    intro l hl _
    rw [List.length_eq_zero.mp (Nat.le_zero.mp hl)]
    rfl
  | succ f ih =>
    intro l hl h
    match l with
    | [] => rfl
    | n :: rest =>
      rw [topClean_cons, Bool.and_eq_true] at h
      rw [List.length_cons] at hl
      rw [pagPassF]
      by_cases hs : isDivWet "pagination-start" n = true
      · simp only [hs, if_true, topClean_cons, Bool.and_eq_true]
        refine ⟨rfl, ?_⟩
        refine ih (pagStep rest []).2 ?_ ?_
        · have := pagStep_len rest []
          omega
        · rw [topClean_forall]
          intro x hx
          exact topClean_forall.mp h.2 x (pagStep_rest_mem rest [] x hx)
      · simp only [Bool.not_eq_true] at hs
        simp only [hs, Bool.false_eq_true, if_false, topClean_cons, Bool.and_eq_true]
        exact ⟨h.1, ih rest (by omega) h.2⟩

theorem isPagM_eq : isPagM = markerIs pagDivPred := rfl

theorem pagStage_pres (p : String → String → Bool) (l : List Node)
    (h : cleanL p l = true) : cleanL p (pagStage l) = true :=
  sweepL_pres isPagM p _ (pagPassF_pres p _ l le_rfl h)

theorem pagStage_top (p : String → String → Bool) (l : List Node)
    (h : topClean p l = true) : topClean p (pagStage l) = true :=
  sweepL_topClean isPagM p _ (pagPassF_top p _ l le_rfl h)

theorem pagStage_pagClean (l : List Node) :
    cleanL pagDivPred (pagStage l) = true := by
  rw [pagStage, isPagM_eq]
  exact sweepL_self pagDivPred _

/-! # List pass lemmas -/

theorem isListMarker_eq : isListMarker = markerIs listPred := rfl

theorem listApply_length (k : String) : ∀ l : List Node,
    (listApply k l).length = l.length := by
  intro l
  induction l with
  | nil => rfl
  | cons n rest ih =>
    rw [listApply]
    by_cases ht : isListElem n = true
    · simp only [ht, if_true, List.length_cons]
    · simp only [Bool.not_eq_true] at ht
      simp only [ht, Bool.false_eq_true, if_false, List.length_cons, ih]

theorem listApply_clean (k : String) (p : String → String → Bool) :
    ∀ l, cleanL p l = true → cleanL p (listApply k l) = true := by
  intro l
  induction l with
  | nil => intro h; exact h
  | cons n rest ih =>
    intro h
    rw [cleanL, Bool.and_eq_true] at h
    rw [listApply]
    by_cases ht : isListElem n = true
    · simp only [ht, if_true, cleanL, Bool.and_eq_true, cleanN_addClass]
      exact ⟨h.1, h.2⟩
    · simp only [Bool.not_eq_true] at ht
      simp only [ht, Bool.false_eq_true, if_false, cleanL, Bool.and_eq_true]
      exact ⟨h.1, ih h.2⟩

theorem listApply_levelOk (k : String) (p : String → String → Bool) :
    ∀ l, levelOk p l = true → levelOk p (listApply k l) = true := by
  intro l
  induction l with
  | nil => intro h; exact h
  | cons n rest ih =>
    intro h
    rw [levelOk_cons, Bool.and_eq_true] at h
    rw [listApply]
    by_cases ht : isListElem n = true
    · simp only [ht, if_true, levelOk_cons, Bool.and_eq_true, kidsClean_addClass]
      exact ⟨h.1, h.2⟩
    · simp only [Bool.not_eq_true] at ht
      simp only [ht, Bool.false_eq_true, if_false, levelOk_cons, Bool.and_eq_true]
      exact ⟨h.1, ih h.2⟩

theorem listApply_topClean (k : String) (p : String → String → Bool) :
    ∀ l, topClean p l = true → topClean p (listApply k l) = true := by
  intro l
  induction l with
  | nil => intro h; exact h
  | cons n rest ih =>
    intro h
    rw [topClean_cons, Bool.and_eq_true] at h
    rw [listApply]
    by_cases ht : isListElem n = true
    · simp only [ht, if_true, topClean_cons, Bool.and_eq_true, markerIs_addClass]
      exact ⟨h.1, h.2⟩
    · simp only [Bool.not_eq_true] at ht
      simp only [ht, Bool.false_eq_true, if_false, topClean_cons, Bool.and_eq_true]
      exact ⟨h.1, ih h.2⟩

theorem listSibsF_clean : ∀ fuel l, l.length ≤ fuel →
    levelOk listPred l = true → cleanL listPred (listSibsF fuel l) = true := by
  intro fuel
  induction fuel with
  | zero =>
    intro l hl _
    rw [List.length_eq_zero.mp (Nat.le_zero.mp hl)]
    rfl
  | succ f ih =>
    intro l hl h
    match l with
    | [] => rfl
    | n :: rest =>
      rw [levelOk_cons, Bool.and_eq_true] at h
      rw [List.length_cons] at hl
      rw [listSibsF]
      by_cases hm : isListMarker n = true
      · simp only [hm, if_true]
        exact ih (listApply (n.wet.getD "") rest)
          (by rw [listApply_length]; omega) (listApply_levelOk _ listPred rest h.2)
      · simp only [Bool.not_eq_true] at hm
        simp only [hm, Bool.false_eq_true, if_false, cleanL, Bool.and_eq_true]
        refine ⟨cleanN_of_parts ?_ h.1, ih rest (by omega) h.2⟩
        rw [← isListMarker_eq]
        exact hm

theorem listSibsF_pres (p : String → String → Bool) : ∀ fuel l, l.length ≤ fuel →
    cleanL p l = true → cleanL p (listSibsF fuel l) = true := by
  intro fuel
  induction fuel with
  | zero =>
    intro l hl h
    rw [List.length_eq_zero.mp (Nat.le_zero.mp hl)]
    rfl
  | succ f ih =>
    intro l hl h
    match l with
    | [] => rfl
    | n :: rest =>
      rw [cleanL, Bool.and_eq_true] at h
      rw [List.length_cons] at hl
      rw [listSibsF]
      by_cases hm : isListMarker n = true
      · simp only [hm, if_true]
        exact ih (listApply (n.wet.getD "") rest)
          (by rw [listApply_length]; omega) (listApply_clean _ p rest h.2)
      · simp only [Bool.not_eq_true] at hm
        simp only [hm, Bool.false_eq_true, if_false, cleanL, Bool.and_eq_true]
        exact ⟨h.1, ih rest (by omega) h.2⟩

theorem listSibsF_topClean (p : String → String → Bool) : ∀ fuel l, l.length ≤ fuel →
    topClean p l = true → topClean p (listSibsF fuel l) = true := by
  intro fuel
  induction fuel with
  | zero =>
    intro l hl h
    rw [List.length_eq_zero.mp (Nat.le_zero.mp hl)]
    rfl
  | succ f ih =>
    intro l hl h
    match l with
    | [] => rfl
    | n :: rest =>
      rw [topClean_cons, Bool.and_eq_true] at h
      rw [List.length_cons] at hl
      rw [listSibsF]
      by_cases hm : isListMarker n = true
      · simp only [hm, if_true]
        exact ih (listApply (n.wet.getD "") rest)
          (by rw [listApply_length]; omega) (listApply_topClean _ p rest h.2)
      · simp only [Bool.not_eq_true] at hm
        simp only [hm, Bool.false_eq_true, if_false, topClean_cons, Bool.and_eq_true]
        exact ⟨h.1, ih rest (by omega) h.2⟩

mutual
theorem listPassNode_kids : ∀ n, kidsClean listPred (listPassNode n) = true
  | .text _ => rfl
  | .elem t a cs => by
    rw [listPassNode]
    show cleanL listPred (listSibs (listPassList cs)) = true
    exact listSibsF_clean _ _ le_rfl (levelOk_of_kids cs)
theorem levelOk_of_kids : ∀ l, levelOk listPred (listPassList l) = true
  | [] => rfl
  | n :: rest => by
    rw [listPassList, levelOk_cons, Bool.and_eq_true]
    exact ⟨listPassNode_kids n, levelOk_of_kids rest⟩
end

theorem listStage_clean (l : List Node) :
    cleanL listPred (listStage l) = true :=
  listSibsF_clean _ _ le_rfl (levelOk_of_kids l)

mutual
theorem listPassNode_pres (p : String → String → Bool) :
    ∀ n, cleanN p n = true → cleanN p (listPassNode n) = true
  | .text _, h => h
  | .elem t a cs, h => by
    rcases cleanN_elem_iff.mp h with ⟨h1, h2⟩
    rw [listPassNode]
    exact cleanN_elem_iff.mpr ⟨by rw [markerIs_kids p t a _ cs]; exact h1,
      listSibsF_pres p _ _ le_rfl (listPassList_pres p cs h2)⟩
theorem listPassList_pres (p : String → String → Bool) :
    ∀ l, cleanL p l = true → cleanL p (listPassList l) = true
  | [], _ => rfl
  | n :: rest, h => by
    rw [cleanL, Bool.and_eq_true] at h
    rw [listPassList, cleanL, Bool.and_eq_true]
    exact ⟨listPassNode_pres p n h.1, listPassList_pres p rest h.2⟩
end

theorem listStage_pres (p : String → String → Bool) (l : List Node)
    (h : cleanL p l = true) : cleanL p (listStage l) = true :=
  listSibsF_pres p _ _ le_rfl (listPassList_pres p l h)

theorem markerIs_listPassNode (p : String → String → Bool) (n : Node) :
    markerIs p (listPassNode n) = markerIs p n := by
  cases n <;> rfl

theorem listPassList_topClean (p : String → String → Bool) :
    ∀ l, topClean p l = true → topClean p (listPassList l) = true := by
  intro l
  induction l with
  | nil => intro h; exact h
  | cons n rest ih =>
    intro h
    rw [topClean_cons, Bool.and_eq_true] at h
    rw [listPassList, topClean_cons, Bool.and_eq_true, markerIs_listPassNode]
    exact ⟨h.1, ih h.2⟩

theorem listStage_topClean (p : String → String → Bool) (l : List Node)
    (h : topClean p l = true) : topClean p (listStage l) = true :=
  listSibsF_topClean p _ _ le_rfl (listPassList_topClean p l h)

/-! # Fuel congruence and per-step equations for the sibling scans -/

theorem detailsF_congr : ∀ f1 f2 l, l.length ≤ f1 → l.length ≤ f2 →
    detailsF f1 l = detailsF f2 l := by
  intro f1
  induction f1 with
  | zero =>
    intro f2 l h1 _
    rw [List.length_eq_zero.mp (Nat.le_zero.mp h1)]
    cases f2 <;> rfl
  | succ f ih =>
    intro f2 l h1 h2
    match l with
    | [] => cases f2 <;> rfl
    | n :: rest =>
      rw [List.length_cons] at h1 h2
      cases f2 with
      | zero => omega
      | succ f2x =>
        rw [detailsF, detailsF]
        by_cases hs : isSummaryM n = true
        · simp only [hs, if_true]
          have hsp := spanContent_len2 rest
          rw [ih f2x (spanContent rest).2 (by omega) (by omega)]
        · simp only [Bool.not_eq_true] at hs
          simp only [hs, Bool.false_eq_true, if_false]
          rw [ih f2x rest (by omega) (by omega)]

theorem detailsPass_nil : detailsPass [] = [] := rfl

theorem detailsPass_summary (n : Node) (rest : List Node)
    (h : isSummaryM n = true) :
    detailsPass (n :: rest) =
      mkDetails (innerNodes n) (spanContent rest).1 ::
        detailsPass (spanContent rest).2 := by
  rw [detailsPass, detailsPass, List.length_cons, detailsF]
  simp only [h, if_true]
  have hsp := spanContent_len2 rest
  rw [detailsF_congr rest.length (spanContent rest).2.length _ (by omega) le_rfl]

theorem detailsPass_other (n : Node) (rest : List Node)
    (h : isSummaryM n = false) :
    detailsPass (n :: rest) = n :: detailsPass rest := by
  rw [detailsPass, detailsPass, List.length_cons, detailsF]
  simp only [h, Bool.false_eq_true, if_false]

theorem tableSibsF_congr : ∀ f1 f2 l, l.length ≤ f1 → l.length ≤ f2 →
    tableSibsF f1 l = tableSibsF f2 l := by
  intro f1
  induction f1 with
  | zero =>
    intro f2 l h1 _
    rw [List.length_eq_zero.mp (Nat.le_zero.mp h1)]
    cases f2 <;> rfl
  | succ f ih =>
    intro f2 l h1 h2
    match l with
    | [] => cases f2 <;> rfl
    | n :: rest =>
      rw [List.length_cons] at h1 h2
      cases f2 with
      | zero => omega
      | succ f2x =>
        rw [tableSibsF, tableSibsF]
        cases hw : n.wet with
        | some w =>
          by_cases hp : (strStarts "table-" w) = true
          · simp only [hp, if_true]
            rw [ih f2x (tableApply w rest)
              (by rw [tableApply_length]; omega)
              (by rw [tableApply_length]; omega)]
          · simp only [Bool.not_eq_true] at hp
            simp only [hp, Bool.false_eq_true, if_false]
            rw [ih f2x rest (by omega) (by omega)]
        | none => rw [ih f2x rest (by omega) (by omega)]

theorem tableSibs_nil : tableSibs [] = [] := rfl

theorem tableSibs_marker (n : Node) (w : String) (rest : List Node)
    (hw : n.wet = some w) (hp : (strStarts "table-" w) = true) :
    tableSibs (n :: rest) = tableSibs (tableApply w rest) := by
  rw [tableSibs, tableSibs, List.length_cons, tableSibsF]
  simp only [hw, hp, if_true]
  rw [tableSibsF_congr rest.length (tableApply w rest).length _
    (by rw [tableApply_length]) le_rfl]

theorem tableSibs_other (n : Node) (rest : List Node)
    (h : isTableMarker n = false) :
    tableSibs (n :: rest) = n :: tableSibs rest := by
  rw [tableSibs, tableSibs, List.length_cons, tableSibsF]
  have hmw : markerIs tablePred n = false := h
  rw [markerIs_wet] at hmw
  cases hw : n.wet with
  | some w =>
    simp only [hw, tablePred] at hmw
    simp only [hw, hmw, Bool.false_eq_true, if_false]
  | none => simp only [hw]

theorem accPassF_congr : ∀ f1 f2 l, l.length ≤ f1 → l.length ≤ f2 →
    accPassF f1 l = accPassF f2 l := by
  intro f1
  induction f1 with
  | zero =>
    intro f2 l h1 _
    rw [List.length_eq_zero.mp (Nat.le_zero.mp h1)]
    cases f2 <;> rfl
  | succ f ih =>
    intro f2 l h1 h2
    match l with
    | [] => cases f2 <;> rfl
    | n :: rest =>
      rw [List.length_cons] at h1 h2
      cases f2 with
      | zero => omega
      | succ f2x =>
        rw [accPassF, accPassF]
        by_cases hs : isDivWet "accordion-start" n = true
        · simp only [hs, if_true]
          have := accStep_len rest []
          rw [ih f2x (accStep rest []).2 (by omega) (by omega)]
        · simp only [Bool.not_eq_true] at hs
          simp only [hs, Bool.false_eq_true, if_false]
          rw [ih f2x rest (by omega) (by omega)]

theorem accPass_nil : accPass [] = [] := rfl

theorem accPass_start (n : Node) (rest : List Node)
    (h : isDivWet "accordion-start" n = true) :
    accPass (n :: rest) =
      Node.elem "section" [("class", "wb-accordion")] (accStep rest []).1.reverse ::
        accPass (accStep rest []).2 := by
  rw [accPass, accPass, List.length_cons, accPassF]
  simp only [h, if_true]
  have := accStep_len rest []
  rw [accPassF_congr rest.length (accStep rest []).2.length _ (by omega) le_rfl]

theorem accPass_other (n : Node) (rest : List Node)
    (h : isDivWet "accordion-start" n = false) :
    accPass (n :: rest) = n :: accPass rest := by
  rw [accPass, accPass, List.length_cons, accPassF]
  simp only [h, Bool.false_eq_true, if_false]

theorem pagPassF_congr : ∀ f1 f2 l, l.length ≤ f1 → l.length ≤ f2 →
    pagPassF f1 l = pagPassF f2 l := by
  intro f1
  induction f1 with
  | zero =>
    intro f2 l h1 _
    rw [List.length_eq_zero.mp (Nat.le_zero.mp h1)]
    cases f2 <;> rfl
  | succ f ih =>
    intro f2 l h1 h2
    match l with
    | [] => cases f2 <;> rfl
    | n :: rest =>
      rw [List.length_cons] at h1 h2
      cases f2 with
      | zero => omega
      | succ f2x =>
        rw [pagPassF, pagPassF]
        by_cases hs : isDivWet "pagination-start" n = true
        · simp only [hs, if_true]
          have := pagStep_len rest []
          rw [ih f2x (pagStep rest []).2 (by omega) (by omega)]
        · simp only [Bool.not_eq_true] at hs
          simp only [hs, Bool.false_eq_true, if_false]
          rw [ih f2x rest (by omega) (by omega)]

theorem pagPass_nil : pagPass [] = [] := rfl

theorem pagPass_start (n : Node) (rest : List Node)
    (h : isDivWet "pagination-start" n = true) :
    pagPass (n :: rest) =
      Node.elem "nav" [("aria-label", "Pagination")]
        [Node.elem "ul" [("class", "pagination")] (pagStep rest []).1.reverse] ::
        pagPass (pagStep rest []).2 := by
  rw [pagPass, pagPass, List.length_cons, pagPassF]
  simp only [h, if_true]
  have := pagStep_len rest []
  rw [pagPassF_congr rest.length (pagStep rest []).2.length _ (by omega) le_rfl]

theorem pagPass_other (n : Node) (rest : List Node)
    (h : isDivWet "pagination-start" n = false) :
    pagPass (n :: rest) = n :: pagPass rest := by
  rw [pagPass, pagPass, List.length_cons, pagPassF]
  simp only [h, Bool.false_eq_true, if_false]

theorem listSibsF_congr : ∀ f1 f2 l, l.length ≤ f1 → l.length ≤ f2 →
    listSibsF f1 l = listSibsF f2 l := by
  intro f1
  induction f1 with
  | zero =>
    intro f2 l h1 _
    rw [List.length_eq_zero.mp (Nat.le_zero.mp h1)]
    cases f2 <;> rfl
  | succ f ih =>
    intro f2 l h1 h2
    match l with
    | [] => cases f2 <;> rfl
    | n :: rest =>
      rw [List.length_cons] at h1 h2
      cases f2 with
      | zero => omega
      | succ f2x =>
        rw [listSibsF, listSibsF]
        by_cases hm : isListMarker n = true
        · simp only [hm, if_true]
          rw [ih f2x (listApply (n.wet.getD "") rest)
            (by rw [listApply_length]; omega)
            (by rw [listApply_length]; omega)]
        · simp only [Bool.not_eq_true] at hm
          simp only [hm, Bool.false_eq_true, if_false]
          rw [ih f2x rest (by omega) (by omega)]

theorem listSibs_nil : listSibs [] = [] := rfl

theorem listSibs_marker (n : Node) (rest : List Node)
    (h : isListMarker n = true) :
    listSibs (n :: rest) = listSibs (listApply (n.wet.getD "") rest) := by
  rw [listSibs, listSibs, List.length_cons, listSibsF]
  simp only [h, if_true]
  rw [listSibsF_congr rest.length (listApply (n.wet.getD "") rest).length _
    (by rw [listApply_length]) le_rfl]

theorem listSibs_other (n : Node) (rest : List Node)
    (h : isListMarker n = false) :
    listSibs (n :: rest) = n :: listSibs rest := by
  rw [listSibs, listSibs, List.length_cons, listSibsF]
  simp only [h, Bool.false_eq_true, if_false]

/-! # Helper lemmas for the claim theorems -/

theorem isDivWet_distinct {w1 w2 : String} {n : Node}
    (h : isDivWet w1 n = true) (hne : w1 ≠ w2) : isDivWet w2 n = false := by
  cases n with
  | text s => rfl
  | elem t a cs =>
    rw [isDivWet, markerIs] at h ⊢
    cases hw : lookAttr "data-wet" a with
    | none =>
      rw [hw] at h
    | some w =>
      simp only [hw, Bool.and_eq_true, beq_iff_eq] at h
      simp only [hw]
      rw [h.2]
      have hb : (w1 == w2) = false := beq_eq_false_iff_ne.mpr hne
      simp [hb]

theorem isDivWet_false_of_markerIs {p : String → String → Bool} {w0 : String}
    {n : Node} (hshape : p "div" w0 = true) (h : markerIs p n = false) :
    isDivWet w0 n = false := by
  rw [isDivWet]
  refine markerIs_mono ?_ h
  intro t w hc
  simp only [Bool.and_eq_true, beq_iff_eq] at hc
  rw [hc.1, hc.2]
  exact hshape

theorem topClean_append {p : String → String → Bool} (l1 l2 : List Node) :
    topClean p (l1 ++ l2) = (topClean p l1 && topClean p l2) := by
  simp [topClean, List.all_append]

theorem accStep_interior : ∀ l r,
    (∀ n ∈ l, isDivWet "accordion-heading" n = true ∨
      isDivWet "accordion-panel" n = true) →
    (accStep l r).2 = [] := by
  intro l
  induction l with
  | nil => intro r _; rfl
  | cons n rest ih =>
    intro r h
    have hn := h n (List.mem_cons_self n rest)
    have hrest : ∀ x ∈ rest, isDivWet "accordion-heading" x = true ∨
        isDivWet "accordion-panel" x = true :=
      fun x hx => h x (List.mem_cons.mpr (Or.inr hx))
    rw [accStep]
    rcases hn with hh | hp
    · have he : isDivWet "accordion-end" n = false :=
        isDivWet_distinct hh (by decide)
      simp only [he, Bool.false_eq_true, if_false, hh, if_true]
      exact ih _ hrest
    · have he : isDivWet "accordion-end" n = false :=
        isDivWet_distinct hp (by decide)
      have hh : isDivWet "accordion-heading" n = false :=
        isDivWet_distinct hp (by decide)
      simp only [he, hh, Bool.false_eq_true, if_false, hp, if_true]
      exact ih _ hrest

theorem pagStep_interior : ∀ l r,
    (∀ n ∈ l, isDivWet "pagination-item" n = true ∨
      isDivWet "pagination-active" n = true ∨
      isDivWet "pagination-disabled" n = true) →
    (pagStep l r).2 = [] := by
  intro l
  induction l with
  | nil => intro r _; rfl
  | cons n rest ih =>
    intro r h
    have hn := h n (List.mem_cons_self n rest)
    have hrest : ∀ x ∈ rest, isDivWet "pagination-item" x = true ∨
        isDivWet "pagination-active" x = true ∨
        isDivWet "pagination-disabled" x = true :=
      fun x hx => h x (List.mem_cons.mpr (Or.inr hx))
    rw [pagStep]
    rcases hn with hi | ha | hd
    · have he : isDivWet "pagination-end" n = false :=
        isDivWet_distinct hi (by decide)
      have ha : isDivWet "pagination-active" n = false :=
        isDivWet_distinct hi (by decide)
      have hd : isDivWet "pagination-disabled" n = false :=
        isDivWet_distinct hi (by decide)
      simp only [he, ha, hd, Bool.false_eq_true, if_false, hi, if_true]
      exact ih _ hrest
    · have he : isDivWet "pagination-end" n = false :=
        isDivWet_distinct ha (by decide)
      simp only [he, Bool.false_eq_true, if_false, ha, if_true]
      exact ih _ hrest
    · have he : isDivWet "pagination-end" n = false :=
        isDivWet_distinct hd (by decide)
      have ha : isDivWet "pagination-active" n = false :=
        isDivWet_distinct hd (by decide)
      simp only [he, ha, Bool.false_eq_true, if_false, hd, if_true]
      exact ih _ hrest

theorem tableApply_noTarget (k : String) : ∀ l,
    (∀ x ∈ l, isTableElem x = false) → tableApply k l = l := by
  intro l
  induction l with
  | nil => intro _; rfl
  | cons n rest ih =>
    intro h
    have hn := h n (List.mem_cons_self n rest)
    rw [tableApply]
    simp only [hn, Bool.false_eq_true, if_false]
    rw [ih (fun x hx => h x (List.mem_cons.mpr (Or.inr hx)))]

theorem tableApply_respFound : ∀ (pre : List Node) (t : Node) (post : List Node),
    (∀ x ∈ pre, isTableElem x = false) → isTableElem t = true →
    isTableMarker t = false →
    tableApply "table-responsive" (pre ++ t :: post) =
      pre ++ Node.elem "div" [("class", "table-responsive")] [t] :: post := by
  intro pre
  induction pre with
  | nil =>
    intro t post _ ht htm
    rw [List.nil_append, tableApply]
    simp only [ht, if_true, htm, Bool.false_eq_true, if_false]
    rfl
  | cons n rest ih =>
    intro t post h ht htm
    have hn := h n (List.mem_cons_self n rest)
    rw [List.cons_append, tableApply]
    simp only [hn, Bool.false_eq_true, if_false]
    rw [ih t post (fun x hx => h x (List.mem_cons.mpr (Or.inr hx))) ht htm]
    rfl

theorem tableClassMap_resp {k : String} {cls : String}
    (h : tableClassMap k = some cls) : (k == "table-responsive") = false := by
  cases hk : (k == "table-responsive") with
  | false => rfl
  | true =>
    have hk2 : k = "table-responsive" := by simpa using hk
    rw [hk2, show tableClassMap "table-responsive" = none from rfl] at h
    exact Option.noConfusion h

theorem tableApply_classFound : ∀ (pre : List Node) (t : Node) (post : List Node)
    (k cls : String), (∀ x ∈ pre, isTableElem x = false) → isTableElem t = true →
    tableClassMap k = some cls →
    tableApply k (pre ++ t :: post) = pre ++ setClassAttr cls t :: post := by
  intro pre
  induction pre with
  | nil =>
    intro t post k cls _ ht hmap
    rw [List.nil_append, tableApply]
    simp only [ht, if_true, tableClassMap_resp hmap, Bool.false_eq_true, if_false, hmap]
    rfl
  | cons n rest ih =>
    intro t post k cls h ht hmap
    have hn := h n (List.mem_cons_self n rest)
    rw [List.cons_append, tableApply]
    simp only [hn, Bool.false_eq_true, if_false]
    rw [ih t post k cls (fun x hx => h x (List.mem_cons.mpr (Or.inr hx))) ht hmap]
    rfl

theorem listApply_noTarget (k : String) : ∀ l,
    (∀ x ∈ l, isListElem x = false) → listApply k l = l := by
  intro l
  induction l with
  | nil => intro _; rfl
  | cons n rest ih =>
    intro h
    have hn := h n (List.mem_cons_self n rest)
    rw [listApply]
    simp only [hn, Bool.false_eq_true, if_false]
    rw [ih (fun x hx => h x (List.mem_cons.mpr (Or.inr hx)))]

theorem listSibsF_id : ∀ (fuel : Nat) (l : List Node),
    topClean listPred l = true → listSibsF fuel l = l := by
  intro fuel
  induction fuel with
  | zero => intro l _; rfl
  | succ f ih =>
    intro l h
    match l with
    | [] => rfl
    | n :: rest =>
      rw [topClean_cons, Bool.and_eq_true, Bool.not_eq_true'] at h
      rw [listSibsF]
      have hm : isListMarker n = false := by
        rw [isListMarker_eq]
        exact h.1
      simp only [hm, Bool.false_eq_true, if_false, ih rest h.2]

theorem listApply_found : ∀ (pre : List Node) (t : Node) (post : List Node)
    (k : String), (∀ x ∈ pre, isListElem x = false) → isListElem t = true →
    listApply k (pre ++ t :: post) = pre ++ addClass k t :: post := by
  intro pre
  induction pre with
  | nil =>
    intro t post k _ ht
    rw [List.nil_append, listApply]
    simp only [ht, if_true]
    rfl
  | cons n rest ih =>
    intro t post k h ht
    have hn := h n (List.mem_cons_self n rest)
    rw [List.cons_append, listApply]
    simp only [hn, Bool.false_eq_true, if_false]
    rw [ih t post k (fun x hx => h x (List.mem_cons.mpr (Or.inr hx))) ht]
    rfl

theorem tableClassMap_starts {k cls : String} (h : tableClassMap k = some cls) :
    strStarts "table-" k = true := by
  simp only [tableClassMap] at h
  split at h
  case isTrue h1 => rw [beq_iff_eq.mp h1]; rfl
  case isFalse =>
    split at h
    case isTrue h2 => rw [beq_iff_eq.mp h2]; rfl
    case isFalse =>
      split at h
      case isTrue h3 => rw [beq_iff_eq.mp h3]; rfl
      case isFalse =>
        split at h
        case isTrue h4 => rw [beq_iff_eq.mp h4]; rfl
        case isFalse =>
          split at h
          case isTrue h5 => rw [beq_iff_eq.mp h5]; rfl
          case isFalse => exact Option.noConfusion h

/-! # Claim theorems -/

/-- C9, exit-code contract: with no input path given, main reports the
usage message and stops with exit status 2 without consulting the
converter; a converter failure prints the error and exits 1; success
exits 0, writes the HTML to the selected destination unchanged, and puts
the converter warnings on the error stream one per line (after a fixed
header), without affecting the output or the exit status. -/
theorem claim9_cli_exit_codes :
    (∀ (argv : List String) (cv cv2 : String → Except String (String × List String)),
      (parseArgs argv).input = none →
      mainModel argv cv = { exitCode := 2, written := none, errLines := [usageLine] } ∧
      mainModel argv cv = mainModel argv cv2) ∧
    (∀ argv cv inp e, (parseArgs argv).input = some inp → cv inp = .error e →
      mainModel argv cv = { exitCode := 1, written := none, errLines := [e] }) ∧
    (∀ argv cv inp html msgs, (parseArgs argv).input = some inp →
      cv inp = .ok (html, msgs) →
      mainModel argv cv =
        { exitCode := 0
          written := some ((parseArgs argv).output, html)
          errLines := if msgs.isEmpty then []
            else "mammoth messages:" :: msgs.map (fun m => " - " ++ m) }) := by
  refine ⟨?_, ?_, ?_⟩
  · intro argv cv cv2 h
    constructor
    · simp only [mainModel, h]
    · simp only [mainModel, h]
  · intro argv cv inp e h1 h2
    simp only [mainModel, h1, h2]
  · intro argv cv inp html msgs h1 h2
    simp only [mainModel, h1, h2]

theorem claim9_witness :
    (parseArgs ["node", "script"]).input = none ∧
    mainModel ["node", "script"] (fun _ => .ok ("<main/>", [])) =
      { exitCode := 2, written := none, errLines := [usageLine] } ∧
    mainModel ["node", "script", "in.docx"] (fun _ => .error "boom") =
      { exitCode := 1, written := none, errLines := ["boom"] } ∧
    mainModel ["node", "script", "in.docx", "-o", "out.html"]
      (fun _ => .ok ("<main/>", ["w1", "w2"])) =
      { exitCode := 0, written := some (some "out.html", "<main/>"),
        errLines := ["mammoth messages:", " - w1", " - w2"] } := by
  refine ⟨rfl, ?_, ?_, ?_⟩
  · exact (claim9_cli_exit_codes.1 ["node", "script"] _
      (fun _ => .ok ("", [])) rfl).1
  · exact claim9_cli_exit_codes.2.1 ["node", "script", "in.docx"] _
      "in.docx" "boom" rfl rfl
  · exact claim9_cli_exit_codes.2.2 ["node", "script", "in.docx", "-o", "out.html"]
      _ "in.docx" "<main/>" ["w1", "w2"] rfl rfl

/-- C5, pagination labeling: the sequence start, item, active, disabled,
end yields one navigation list with exactly three entries in order; the
second is the current page (class active, aria-current on its anchor),
the third is non-interactive (class disabled, span instead of anchor),
and every label follows labelOf, i.e. the node's trimmed text with the
raw inner content as fallback when the trimmed text is empty. -/
theorem claim5_pagination_labeling (s0 e0 c1 c2 c3 : List Node) :
    pagStage [mkW "pagination-start" s0, mkW "pagination-item" c1,
      mkW "pagination-active" c2, mkW "pagination-disabled" c3,
      mkW "pagination-end" e0] =
      [Node.elem "nav" [("aria-label", "Pagination")]
        [Node.elem "ul" [("class", "pagination")]
          [Node.elem "li" []
            [Node.elem "a" [("href", "#")]
              [Node.text (labelOf (mkW "pagination-item" c1))]],
           Node.elem "li" [("class", "active")]
            [Node.elem "a" [("href", "#"), ("aria-current", "page")]
              [Node.text (labelOf (mkW "pagination-active" c2))]],
           Node.elem "li" [("class", "disabled")]
            [Node.elem "span" []
              [Node.text (labelOf (mkW "pagination-disabled" c3))]]]]] := rfl

/-- C10, missing end marker: when an accordion-start or pagination-start
scope holds only interior markers and no end marker, the scan consumes
the whole remaining sibling sequence, the built structure still replaces
the start marker, and nothing is removed as an end marker (the built
items are exactly the reversed accumulator of the interior scan). -/
theorem claim10_missing_end_scopes :
    (∀ (s0 : List Node) (rest : List Node),
      (∀ n ∈ rest, isDivWet "accordion-heading" n = true ∨
        isDivWet "accordion-panel" n = true) →
      accPass (mkW "accordion-start" s0 :: rest) =
        [Node.elem "section" [("class", "wb-accordion")]
          (accStep rest []).1.reverse]) ∧
    (∀ (s0 : List Node) (rest : List Node),
      (∀ n ∈ rest, isDivWet "pagination-item" n = true ∨
        isDivWet "pagination-active" n = true ∨
        isDivWet "pagination-disabled" n = true) →
      pagPass (mkW "pagination-start" s0 :: rest) =
        [Node.elem "nav" [("aria-label", "Pagination")]
          [Node.elem "ul" [("class", "pagination")]
            (pagStep rest []).1.reverse]]) := by
  constructor
  · intro s0 rest h
    rw [accPass_start (mkW "accordion-start" s0) rest rfl, accStep_interior rest [] h, accPass_nil]
  · intro s0 rest h
    rw [pagPass_start (mkW "pagination-start" s0) rest rfl, pagStep_interior rest [] h, pagPass_nil]

theorem claim10_witness :
    accPass [mkW "accordion-start" [], mkW "accordion-heading" [Node.text "H"],
      mkW "accordion-panel" [Node.text "P"]] =
      [Node.elem "section" [("class", "wb-accordion")]
        [Node.elem "details" []
          [Node.elem "summary" [] [Node.text "H"],
           Node.elem "p" [] [Node.text "P"]]]] ∧
    pagPass [mkW "pagination-start" [], mkW "pagination-item" [Node.text "1"]] =
      [Node.elem "nav" [("aria-label", "Pagination")]
        [Node.elem "ul" [("class", "pagination")]
          [Node.elem "li" [] [Node.elem "a" [("href", "#")] [Node.text "1"]]]]] := by
  constructor
  · exact claim10_missing_end_scopes.1 []
      [mkW "accordion-heading" [Node.text "H"], mkW "accordion-panel" [Node.text "P"]]
      (by decide)
  · exact claim10_missing_end_scopes.2 [] [mkW "pagination-item" [Node.text "1"]]
      (by decide)

/-- C3, accordion implicit close: start, heading H1, panel P1, heading
H2, panel P2, end yields one accordion section with exactly two items;
each heading's inner content becomes its item's summary and each item
body holds only its own panel paragraph (the hypotheses only rule out
stray accordion divs inside the carried content, which the final sweep
would delete). -/
theorem claim3_accordion_implicit_close (s0 e0 h1 p1 h2 p2 : List Node)
    (hh1 : cleanL accDivPred h1 = true) (hp1 : cleanL accDivPred p1 = true)
    (hh2 : cleanL accDivPred h2 = true) (hp2 : cleanL accDivPred p2 = true) :
    accStage [mkW "accordion-start" s0, mkW "accordion-heading" h1,
      mkW "accordion-panel" p1, mkW "accordion-heading" h2,
      mkW "accordion-panel" p2, mkW "accordion-end" e0] =
      [Node.elem "section" [("class", "wb-accordion")]
        [Node.elem "details" []
          [Node.elem "summary" [] h1, Node.elem "p" [] p1],
         Node.elem "details" []
          [Node.elem "summary" [] h2, Node.elem "p" [] p2]]] := by
  rw [accStage, isAccM_eq]
  show sweepL (markerIs accDivPred)
    [Node.elem "section" [("class", "wb-accordion")]
      [Node.elem "details" []
        [Node.elem "summary" [] h1, Node.elem "p" [] p1],
       Node.elem "details" []
        [Node.elem "summary" [] h2, Node.elem "p" [] p2]]] = _
  refine sweepL_id accDivPred _ ?_
  rw [cleanL, Bool.and_eq_true]
  refine ⟨cleanN_elem_iff.mpr ⟨rfl, ?_⟩, rfl⟩
  rw [cleanL, Bool.and_eq_true]
  constructor
  · refine cleanN_elem_iff.mpr ⟨rfl, ?_⟩
    rw [cleanL, Bool.and_eq_true]
    refine ⟨cleanN_elem_iff.mpr ⟨rfl, hh1⟩, ?_⟩
    rw [cleanL, Bool.and_eq_true]
    exact ⟨cleanN_elem_iff.mpr ⟨rfl, hp1⟩, rfl⟩
  · rw [cleanL, Bool.and_eq_true]
    refine ⟨cleanN_elem_iff.mpr ⟨rfl, ?_⟩, rfl⟩
    rw [cleanL, Bool.and_eq_true]
    refine ⟨cleanN_elem_iff.mpr ⟨rfl, hh2⟩, ?_⟩
    rw [cleanL, Bool.and_eq_true]
    exact ⟨cleanN_elem_iff.mpr ⟨rfl, hp2⟩, rfl⟩

theorem claim3_witness :
    cleanL accDivPred [Node.text "H1"] = true ∧
    accStage [mkW "accordion-start" [], mkW "accordion-heading" [Node.text "H1"],
      mkW "accordion-panel" [Node.text "P1"], mkW "accordion-heading" [Node.text "H2"],
      mkW "accordion-panel" [Node.text "P2"], mkW "accordion-end" []] =
      [Node.elem "section" [("class", "wb-accordion")]
        [Node.elem "details" []
          [Node.elem "summary" [] [Node.text "H1"], Node.elem "p" [] [Node.text "P1"]],
         Node.elem "details" []
          [Node.elem "summary" [] [Node.text "H2"], Node.elem "p" [] [Node.text "P2"]]]] :=
  ⟨rfl, claim3_accordion_implicit_close [] [] [Node.text "H1"] [Node.text "P1"]
    [Node.text "H2"] [Node.text "P2"] rfl rfl rfl rfl⟩

/-- C4 counterexample: for the sequence start, end the claim predicts
that the end marker, being neither a heading nor a panel and arriving
with no item open, terminates the scope unconsumed and survives as a
plain sibling; the accordion pass in fact consumes and removes it, so
the output holds the empty accordion section alone. -/
theorem claim4_counterexample :
    accStage [mkW "accordion-start" [], mkW "accordion-end" []] =
      [Node.elem "section" [("class", "wb-accordion")] []] := rfl

/-- C4 amended: a lone panel still yields one item with the synthesized
Details label; and a start marker followed by a node X that is not an
accordion-family div (in particular neither a heading, a panel, nor an
end marker) ends the scope without consuming X, which survives as a
plain sibling after the empty accordion section. -/
theorem claim4_accordion_fail_closed_amended :
    (∀ (s0 e0 p1 : List Node), cleanL accDivPred p1 = true →
      accStage [mkW "accordion-start" s0, mkW "accordion-panel" p1,
        mkW "accordion-end" e0] =
        [Node.elem "section" [("class", "wb-accordion")]
          [Node.elem "details" []
            [Node.elem "summary" [] [Node.text "Details"],
             Node.elem "p" [] p1]]]) ∧
    (∀ (s0 : List Node) (X : Node), cleanN accDivPred X = true →
      accStage [mkW "accordion-start" s0, X] =
        [Node.elem "section" [("class", "wb-accordion")] [], X]) := by
  constructor
  · intro s0 e0 p1 hp1
    rw [accStage, isAccM_eq]
    show sweepL (markerIs accDivPred)
      [Node.elem "section" [("class", "wb-accordion")]
        [Node.elem "details" []
          [Node.elem "summary" [] [Node.text "Details"],
           Node.elem "p" [] p1]]] = _
    refine sweepL_id accDivPred _ ?_
    rw [cleanL, Bool.and_eq_true]
    refine ⟨cleanN_elem_iff.mpr ⟨rfl, ?_⟩, rfl⟩
    rw [cleanL, Bool.and_eq_true]
    refine ⟨cleanN_elem_iff.mpr ⟨rfl, ?_⟩, rfl⟩
    rw [cleanL, Bool.and_eq_true]
    refine ⟨cleanN_elem_iff.mpr ⟨rfl, rfl⟩, ?_⟩
    rw [cleanL, Bool.and_eq_true]
    exact ⟨cleanN_elem_iff.mpr ⟨rfl, hp1⟩, rfl⟩
  · intro s0 X hX
    have hm : markerIs accDivPred X = false := cleanN_markerIs hX
    have he : isDivWet "accordion-end" X = false :=
      isDivWet_false_of_markerIs (by decide) hm
    have hh : isDivWet "accordion-heading" X = false :=
      isDivWet_false_of_markerIs (by decide) hm
    have hp : isDivWet "accordion-panel" X = false :=
      isDivWet_false_of_markerIs (by decide) hm
    have hst : isDivWet "accordion-start" X = false :=
      isDivWet_false_of_markerIs (by decide) hm
    have hstep : accStep [X] [] = ([], [X]) := by
      rw [accStep]
      simp only [he, hh, hp, Bool.false_eq_true, if_false]
      rfl
    rw [accStage, isAccM_eq, accPass_start (mkW "accordion-start" s0) [X] rfl, hstep]
    show sweepL (markerIs accDivPred)
      (Node.elem "section" [("class", "wb-accordion")] [] :: accPass [X]) = _
    rw [accPass_other X [] hst, accPass_nil]
    refine sweepL_id accDivPred _ ?_
    rw [cleanL, Bool.and_eq_true]
    refine ⟨cleanN_elem_iff.mpr ⟨rfl, rfl⟩, ?_⟩
    rw [cleanL, Bool.and_eq_true]
    exact ⟨hX, rfl⟩

theorem claim4_witness :
    cleanL accDivPred [Node.text "P1"] = true ∧
    accStage [mkW "accordion-start" [], mkW "accordion-panel" [Node.text "P1"],
      mkW "accordion-end" []] =
      [Node.elem "section" [("class", "wb-accordion")]
        [Node.elem "details" []
          [Node.elem "summary" [] [Node.text "Details"],
           Node.elem "p" [] [Node.text "P1"]]]] ∧
    cleanN accDivPred (Node.elem "p" [] [Node.text "X"]) = true ∧
    accStage [mkW "accordion-start" [], Node.elem "p" [] [Node.text "X"]] =
      [Node.elem "section" [("class", "wb-accordion")] [],
       Node.elem "p" [] [Node.text "X"]] :=
  ⟨rfl,
   claim4_accordion_fail_closed_amended.1 [] [] [Node.text "P1"] rfl,
   rfl,
   claim4_accordion_fail_closed_amended.2 [] (Node.elem "p" [] [Node.text "X"]) rfl⟩

/-- C2 counterexample: with X itself a details-summary marker (which the
claim allows, excluding only details-content markers), the details pass
transforms X into a second disclosure element, so X does not survive
unmodified as the sibling after the first details element. -/
theorem claim2_counterexample :
    detailsStage [mkW "details-summary" [], mkW "details-content" [],
      mkW "details-content" [], mkW "details-summary" []] =
      [Node.elem "details" []
        [Node.elem "summary" [] [], Node.elem "p" [] [], Node.elem "p" [] []],
       Node.elem "details" [] [Node.elem "summary" [] []]] ∧
    (mkW "details-summary" []).tagName = "div" := ⟨rfl, rfl⟩

/-- C2 amended: the details pairing holds once X is neither a
details-summary marker nor a details-content marker and no stray
details-content div hides inside the carried contents or X (those would
be transformed or swept respectively): the pass yields exactly one
details element with the summary content and two paragraphs in order,
and X follows it unmodified. -/
theorem claim2_details_pairing_amended (s c1 c2 : List Node) (X : Node)
    (hs : cleanL contentPred s = true) (hc1 : cleanL contentPred c1 = true)
    (hc2 : cleanL contentPred c2 = true)
    (hXs : isSummaryM X = false) (hX : cleanN contentPred X = true) :
    detailsStage [mkW "details-summary" s, mkW "details-content" c1,
      mkW "details-content" c2, X] =
      [Node.elem "details" []
        [Node.elem "summary" [] s, Node.elem "p" [] c1, Node.elem "p" [] c2],
       X] := by
  have hXc : isContentM X = false := by
    rw [isContentM_eq]
    exact cleanN_markerIs hX
  have hsp : spanContent [mkW "details-content" c1, mkW "details-content" c2, X] =
      ([mkW "details-content" c1, mkW "details-content" c2], [X]) := by
    simp [spanContent, hXc,
      show isContentM (mkW "details-content" c1) = true from rfl,
      show isContentM (mkW "details-content" c2) = true from rfl]
  have hsp1 : (spanContent [mkW "details-content" c1, mkW "details-content" c2, X]).1 =
      [mkW "details-content" c1, mkW "details-content" c2] := by rw [hsp]
  have hsp2 : (spanContent [mkW "details-content" c1, mkW "details-content" c2, X]).2 =
      [X] := by rw [hsp]
  rw [detailsStage, detailsPass_summary (mkW "details-summary" s)
    [mkW "details-content" c1, mkW "details-content" c2, X] rfl, hsp1, hsp2,
    detailsPass_other X [] hXs, detailsPass_nil, isContentM_eq]
  show sweepL (markerIs contentPred)
    [Node.elem "details" []
      [Node.elem "summary" [] s, Node.elem "p" [] c1, Node.elem "p" [] c2],
     X] = _
  refine sweepL_id contentPred _ ?_
  rw [cleanL, Bool.and_eq_true]
  refine ⟨cleanN_elem_iff.mpr ⟨rfl, ?_⟩, ?_⟩
  · rw [cleanL, Bool.and_eq_true]
    refine ⟨cleanN_elem_iff.mpr ⟨rfl, hs⟩, ?_⟩
    rw [cleanL, Bool.and_eq_true]
    refine ⟨cleanN_elem_iff.mpr ⟨rfl, hc1⟩, ?_⟩
    rw [cleanL, Bool.and_eq_true]
    exact ⟨cleanN_elem_iff.mpr ⟨rfl, hc2⟩, rfl⟩
  · rw [cleanL, Bool.and_eq_true]
    exact ⟨hX, rfl⟩

theorem claim2_witness :
    isSummaryM (Node.elem "p" [] [Node.text "X"]) = false ∧
    cleanN contentPred (Node.elem "p" [] [Node.text "X"]) = true ∧
    detailsStage [mkW "details-summary" [Node.text "S"],
      mkW "details-content" [Node.text "C1"], mkW "details-content" [Node.text "C2"],
      Node.elem "p" [] [Node.text "X"]] =
      [Node.elem "details" []
        [Node.elem "summary" [] [Node.text "S"], Node.elem "p" [] [Node.text "C1"],
         Node.elem "p" [] [Node.text "C2"]],
       Node.elem "p" [] [Node.text "X"]] :=
  ⟨rfl, rfl, claim2_details_pairing_amended [Node.text "S"] [Node.text "C1"]
    [Node.text "C2"] (Node.elem "p" [] [Node.text "X"]) rfl rfl rfl rfl rfl⟩

/-- C6, table and list annotation: a table-family or list-family marker
acts on the first table (respectively list) among its later siblings in
document order, not only the immediate neighbour: table-responsive wraps
the found table in a fresh div classed table-responsive, the mapped
table kinds overwrite the table's class attribute, list kinds add the
kind itself as a class on the found list, and with no eligible target
nothing is mutated; in every case the marker itself is removed.  The
sibling lists around the marker are assumed free of further same-family
markers so that exactly this marker's effect is observed. -/
theorem claim6_table_list_annotation :
    (∀ (k : String) (cs : List Node) (rest : List Node),
      strStarts "table-" k = true →
      (∀ x ∈ rest, isTableElem x = false) →
      topClean tablePred rest = true →
      tableSibs (mkW k cs :: rest) = rest) ∧
    (∀ (cs pre post : List Node) (t : Node),
      (∀ x ∈ pre, isTableElem x = false) → isTableElem t = true →
      isTableMarker t = false → topClean tablePred (pre ++ t :: post) = true →
      tableSibs (mkW "table-responsive" cs :: (pre ++ t :: post)) =
        pre ++ Node.elem "div" [("class", "table-responsive")] [t] :: post) ∧
    (∀ (cs pre post : List Node) (t : Node) (k cls : String),
      (∀ x ∈ pre, isTableElem x = false) → isTableElem t = true →
      tableClassMap k = some cls → topClean tablePred (pre ++ t :: post) = true →
      tableSibs (mkW k cs :: (pre ++ t :: post)) =
        pre ++ setClassAttr cls t :: post) ∧
    (∀ (k : String) (cs : List Node) (rest : List Node),
      (k == "list-inline" || k == "list-unstyled") = true →
      (∀ x ∈ rest, isListElem x = false) →
      topClean listPred rest = true →
      listSibs (mkW k cs :: rest) = rest) ∧
    (∀ (cs pre post : List Node) (t : Node) (k : String),
      (k == "list-inline" || k == "list-unstyled") = true →
      (∀ x ∈ pre, isListElem x = false) → isListElem t = true →
      topClean listPred (pre ++ t :: post) = true →
      listSibs (mkW k cs :: (pre ++ t :: post)) = pre ++ addClass k t :: post) := by
  refine ⟨?_, ?_, ?_, ?_, ?_⟩
  · intro k cs rest hk hno hmf
    rw [tableSibs_marker (mkW k cs) k rest rfl hk,
      tableApply_noTarget k rest hno, tableSibs]
    exact tableSibsF_id _ _ hmf
  · intro cs pre post t hno ht htm hmf
    rw [tableSibs_marker (mkW "table-responsive" cs) "table-responsive"
      (pre ++ t :: post) rfl rfl,
      tableApply_respFound pre t post hno ht htm, tableSibs]
    refine tableSibsF_id _ _ ?_
    rw [topClean_append, Bool.and_eq_true] at hmf ⊢
    refine ⟨hmf.1, ?_⟩
    have h2 := hmf.2
    rw [topClean_cons, Bool.and_eq_true] at h2 ⊢
    exact ⟨rfl, h2.2⟩
  · intro cs pre post t k cls hno ht hmap hmf
    rw [tableSibs_marker (mkW k cs) k (pre ++ t :: post) rfl
      (tableClassMap_starts hmap),
      tableApply_classFound pre t post k cls hno ht hmap, tableSibs]
    refine tableSibsF_id _ _ ?_
    rw [topClean_append, Bool.and_eq_true] at hmf ⊢
    refine ⟨hmf.1, ?_⟩
    have h2 := hmf.2
    rw [topClean_cons, Bool.and_eq_true] at h2 ⊢
    rw [markerIs_setClass]
    exact ⟨h2.1, h2.2⟩
  · intro k cs rest hk hno hmf
    rw [listSibs_marker (mkW k cs) rest hk,
      show (mkW k cs).wet.getD "" = k from rfl,
      listApply_noTarget k rest hno, listSibs]
    exact listSibsF_id _ _ hmf
  · intro cs pre post t k hk hno ht hmf
    rw [listSibs_marker (mkW k cs) (pre ++ t :: post) hk,
      show (mkW k cs).wet.getD "" = k from rfl,
      listApply_found pre t post k hno ht, listSibs]
    refine listSibsF_id _ _ ?_
    rw [topClean_append, Bool.and_eq_true] at hmf ⊢
    refine ⟨hmf.1, ?_⟩
    have h2 := hmf.2
    rw [topClean_cons, Bool.and_eq_true] at h2 ⊢
    rw [markerIs_addClass]
    exact ⟨h2.1, h2.2⟩

theorem claim6_witness :
    tableSibs [mkW "table-responsive" [], Node.elem "table" [] [Node.text "T"]] =
      [Node.elem "div" [("class", "table-responsive")]
        [Node.elem "table" [] [Node.text "T"]]] ∧
    tableSibs [mkW "table-basic" [], Node.elem "p" [] [], Node.elem "table" [] []] =
      [Node.elem "p" [] [], Node.elem "table" [("class", "table")] []] ∧
    listSibs [mkW "list-inline" [], Node.elem "ul" [] []] =
      [Node.elem "ul" [("class", "list-inline")] []] ∧
    tableSibs [mkW "table-striped" []] = [] := by
  refine ⟨?_, ?_, ?_, ?_⟩
  · exact claim6_table_list_annotation.2.1 [] [] []
      (Node.elem "table" [] [Node.text "T"]) (by simp) rfl rfl (by decide)
  · exact claim6_table_list_annotation.2.2.1 [] [Node.elem "p" [] []] []
      (Node.elem "table" [] []) "table-basic" "table" (by decide) rfl rfl (by decide)
  · exact claim6_table_list_annotation.2.2.2.2 [] [] [] (Node.elem "ul" [] [])
      "list-inline" rfl (by simp) rfl (by decide)
  · exact claim6_table_list_annotation.1 "table-striped" [] [] rfl (by simp) rfl

/-- C7, alert wrapping: for any element carrying an alert-family marker,
the alert pass builds a section classed alert alert-KIND whose sole
child is the marker's first descendant paragraph (recursively processed,
which changes nothing for ordinary content), or an empty section when no
paragraph exists; and no alert marker survives in the result. -/
theorem claim7_alert_wrapping (t : String) (a : List (String × String))
    (cs : List Node) (kind : String)
    (hk : kind = "success" ∨ kind = "info" ∨ kind = "warning" ∨ kind = "danger")
    (hw : lookAttr "data-wet" a = some ("alert-" ++ kind)) :
    alertNode (.elem t a cs) =
      Node.elem "section" [("class", "alert alert-" ++ kind)]
        (match findFirstP cs with
         | some pn => [alertNode pn]
         | none => []) ∧
    cleanN alertPred (alertNode (.elem t a cs)) = true := by
  have hpre : strStarts "alert-" ("alert-" ++ kind) = true := by
    rcases hk with h | h | h | h <;> subst h <;> rfl
  have hdrop : ("alert-" ++ kind).drop 6 = kind := by
    rcases hk with h | h | h | h <;> subst h <;> rfl
  constructor
  · show alertGo (sizeN (Node.elem t a cs)) (Node.elem t a cs) = _
    have hsz : sizeN (Node.elem t a cs) = sizeL cs + 1 := rfl
    rw [hsz, alertGo]
    simp only [hw, hpre, if_true, hdrop]
    cases hfp : findFirstP cs with
    | none => rfl
    | some pn =>
      have hle := findFirstP_size cs pn hfp
      have heq : alertGo (sizeL cs) pn = alertNode pn := by
        rw [alertNode]
        exact alertGo_congr hle le_rfl
      exact congrArg
        (fun x => Node.elem "section" [("class", "alert alert-" ++ kind)] [x]) heq
  · exact (alert_clean (sizeN (Node.elem t a cs))).1 _ le_rfl

theorem claim7_witness :
    lookAttr "data-wet" [("data-wet", "alert-warning")] =
      some ("alert-" ++ "warning") ∧
    alertNode (Node.elem "div" [("data-wet", "alert-warning")]
      [Node.elem "p" [] [Node.text "W"]]) =
      Node.elem "section" [("class", "alert alert-warning")]
        [Node.elem "p" [] [Node.text "W"]] := by
  constructor
  · rfl
  · exact (claim7_alert_wrapping "div" [("data-wet", "alert-warning")]
      [Node.elem "p" [] [Node.text "W"]] "warning"
      (Or.inr (Or.inr (Or.inl rfl))) rfl).1

/-- C8, table-responsive idempotence: a table-responsive marker followed
by one table yields exactly one wrapper div classed table-responsive
holding exactly that table, and running the table pass again over this
output is the identity, because the marker is gone and no marker
remains to act. -/
theorem claim8_table_responsive_idempotent (ta : List (String × String))
    (tcs : List Node)
    (hT : cleanN tablePred (Node.elem "table" ta tcs) = true) :
    tableStage [mkW "table-responsive" [], Node.elem "table" ta tcs] =
      [Node.elem "div" [("class", "table-responsive")]
        [Node.elem "table" ta tcs]] ∧
    tableStage [Node.elem "div" [("class", "table-responsive")]
      [Node.elem "table" ta tcs]] =
      [Node.elem "div" [("class", "table-responsive")]
        [Node.elem "table" ta tcs]] := by
  have hTm : isTableMarker (Node.elem "table" ta tcs) = false := cleanN_markerIs hT
  constructor
  · have hlist : tablePassList [mkW "table-responsive" [], Node.elem "table" ta tcs] =
        [mkW "table-responsive" [], Node.elem "table" ta tcs] := by
      rw [tablePassList, tablePassList, tablePassList, tablePassNode_id _ hT]
      rfl
    rw [tableStage, hlist,
      tableSibs_marker (mkW "table-responsive" []) "table-responsive"
        [Node.elem "table" ta tcs] rfl rfl]
    have happ : tableApply "table-responsive" [Node.elem "table" ta tcs] =
        [Node.elem "div" [("class", "table-responsive")]
          [Node.elem "table" ta tcs]] := by
      rw [tableApply]
      simp only [show isTableElem (Node.elem "table" ta tcs) = true from rfl,
        if_true, hTm, Bool.false_eq_true, if_false]
      rfl
    rw [happ, tableSibs_other (Node.elem "div" [("class", "table-responsive")]
      [Node.elem "table" ta tcs]) [] rfl, tableSibs_nil]
  · refine tableStage_id _ ?_
    rw [cleanL, Bool.and_eq_true]
    refine ⟨cleanN_elem_iff.mpr ⟨rfl, ?_⟩, rfl⟩
    rw [cleanL, Bool.and_eq_true]
    exact ⟨hT, rfl⟩

theorem claim8_witness :
    cleanN tablePred (Node.elem "table" [] [Node.text "T"]) = true ∧
    tableStage [mkW "table-responsive" [], Node.elem "table" [] [Node.text "T"]] =
      [Node.elem "div" [("class", "table-responsive")]
        [Node.elem "table" [] [Node.text "T"]]] ∧
    tableStage [Node.elem "div" [("class", "table-responsive")]
      [Node.elem "table" [] [Node.text "T"]]] =
      [Node.elem "div" [("class", "table-responsive")]
        [Node.elem "table" [] [Node.text "T"]]] :=
  ⟨rfl,
   (claim8_table_responsive_idempotent [] [Node.text "T"] rfl).1,
   (claim8_table_responsive_idempotent [] [Node.text "T"] rfl).2⟩

/-- C1 counterexample: a details-summary marker div nested one level
below the top of the fragment is matched by no pass (the details builder
scans only the top-level sibling sequence and its stray sweep removes
only details-content divs), so a node carrying a marker from the closed
vocabulary survives in the final output tree. -/
theorem claim1_counterexample :
    cleanN vocabPred (transformPlaceholdersToGCWeb
      [Node.elem "div" [] [mkW "details-summary" [Node.text "hidden"]]]) = false := rfl

/-- C1 amended, marker closure with the div-selector exceptions: in the
final tree no node of any tag carries an alert-, table- or list-family
marker; no div carries a details-content, accordion-family or
pagination-family marker; and no top-level child of the main container
is a details-summary div.  The remaining gaps are real: a
details-summary div below the top level, and details-, accordion- or
pagination-family markers on non-div elements, survive because the
builders and sweeps of those families match div elements only (lines
174, 203, 214, 220, 275, 286, 292 and 346 of the source). -/
theorem claim1_marker_closure_amended (body : List Node) :
    amendedClosure (transformPlaceholdersToGCWeb body) = true := by
  have hAlert : cleanL alertPred (listStage (pagStage (accStage (detailsStage
      (tableStage (alertStage (body.filter isElemNode))))))) = true :=
    listStage_pres alertPred _ (pagStage_pres alertPred _ (accStage_pres alertPred _
      (detailsStage_pres alertPred _ (tableStage_pres alertPred _
        (alertStage_clean _)))))
  have hTable : cleanL tablePred (listStage (pagStage (accStage (detailsStage
      (tableStage (alertStage (body.filter isElemNode))))))) = true :=
    listStage_pres tablePred _ (pagStage_pres tablePred _ (accStage_pres tablePred _
      (detailsStage_pres tablePred _ (tableStage_clean _))))
  have hContent : cleanL contentPred (listStage (pagStage (accStage (detailsStage
      (tableStage (alertStage (body.filter isElemNode))))))) = true :=
    listStage_pres contentPred _ (pagStage_pres contentPred _
      (accStage_pres contentPred _ (detailsStage_content _)))
  have hAcc : cleanL accDivPred (listStage (pagStage (accStage (detailsStage
      (tableStage (alertStage (body.filter isElemNode))))))) = true :=
    listStage_pres accDivPred _ (pagStage_pres accDivPred _ (accStage_accClean _))
  have hPag : cleanL pagDivPred (listStage (pagStage (accStage (detailsStage
      (tableStage (alertStage (body.filter isElemNode))))))) = true :=
    listStage_pres pagDivPred _ (pagStage_pagClean _)
  have hList : cleanL listPred (listStage (pagStage (accStage (detailsStage
      (tableStage (alertStage (body.filter isElemNode))))))) = true :=
    listStage_clean _
  have hTop : topClean summaryPred (listStage (pagStage (accStage (detailsStage
      (tableStage (alertStage (body.filter isElemNode))))))) = true :=
    listStage_topClean summaryPred _ (pagStage_top summaryPred _
      (accStage_top summaryPred _ (detailsStage_top _)))
  simp only [transformPlaceholdersToGCWeb, amendedClosure, Bool.and_eq_true]
  exact ⟨⟨⟨⟨⟨⟨cleanN_elem_iff.mpr ⟨rfl, hAlert⟩,
    cleanN_elem_iff.mpr ⟨rfl, hTable⟩⟩,
    cleanN_elem_iff.mpr ⟨rfl, hList⟩⟩,
    cleanN_elem_iff.mpr ⟨rfl, hContent⟩⟩,
    cleanN_elem_iff.mpr ⟨rfl, hAcc⟩⟩,
    cleanN_elem_iff.mpr ⟨rfl, hPag⟩⟩,
    hTop⟩

end Gcweb
